import Mathlib

/-! # SortedArray (`sorted-array.js`)

A shallow embedding of the sorted sequence container of `sorted-array.js` and
theorems about its search routines and mutating operations.

Conventions of the embedding.

* A JavaScript array is a `List α`; `α` is the type of JavaScript values and
  carries the value `undefined` (class `HasUndefined`), which is what a read
  outside the bounds of an array yields.
* Indices and the `length` field are mathematical integers (`Int`).  The
  source computes the middle of an interval as `(first + last) >> 1`, which its
  own comment reads as `Math.floor( / 2)`.  `searchLoop32` is the loop with the
  32-bit shift of the source (`ToInt32`, then the shift); the statements about
  `search` itself are made of it.  `searchLoop` is the loop with the floor of
  the half, which the operations of the container are stated with;
  `searchLoop32_eq_searchTrace` proves that the two loops read the same indices
  and return the same result on every array of at most `2^30` elements, and
  `search32_overflow` shows how they part on an array of `2^30 + 1` elements.
* `compare` returns an `Int`, `equals` a `Bool`.
* A `while` loop whose number of iterations is not bounded by its own test
  takes a `fuel : Nat`, the number of iterations it may still run, and returns
  `none` when that number is used up with the loop still running.
* A container is a record of its fields; the events it dispatches are appended
  to the field `dispatched`.  A method returns its result paired with the new
  container.
-/

namespace SortedArray

/-! ## JavaScript values and arrays -/

/-- The JavaScript value `undefined` of the value type `α`. -/
class HasUndefined (α : Type) where
  /-- The value `undefined`. -/
  undefined : α

export HasUndefined (undefined)

variable {α : Type}

/-- The read `array[i]`: the element at `i` when `0 ≤ i < array.length`, else `undefined`. -/
def item [HasUndefined α] (array : List α) (i : Int) : α :=
  if i < 0 then undefined else array.getD i.toNat undefined

/-- The position in `[0, len]` that `Array.prototype.slice` and `splice` take a
relative integer index for: `max(len + i, 0)` when `i < 0`, else `min(i, len)`. -/
def clampIndex (len : Nat) (i : Int) : Nat :=
  if i < 0 then (len + i).toNat else if i < len then i.toNat else len

/-- The position `Array.prototype.slice` takes its second argument for; `none` is `Infinity`. -/
def clampEnd (len : Nat) : Option Int → Nat
  | none => len
  | some stop => clampIndex len stop

/-- `Array.prototype.slice(start, stop)` on integer arguments (`stop = none` is `Infinity`):
the elements at the positions `k, ..., final - 1`. -/
def arraySlice (array : List α) (start : Int) (stop : Option Int) : List α :=
  let k := clampIndex array.length start
  let final := clampEnd array.length stop
  (array.drop k).take (final - k)

/-- The number of elements `Array.prototype.splice(start, deleteCount)` removes:
`min(max(deleteCount, 0), len - actualStart)`; `none` is `Infinity`. -/
def spliceCount (len actualStart : Nat) : Option Int → Nat
  | none => len - actualStart
  | some deleteCount =>
    if deleteCount.toNat < len - actualStart then deleteCount.toNat else len - actualStart

/-- `Array.prototype.splice(start, deleteCount, ...items)`: the removed elements and the
array after the call. -/
def arraySplice (array : List α) (start : Int) (deleteCount : Option Int) (items : List α) :
    List α × List α :=
  let actualStart := clampIndex array.length start
  let actualDeleteCount := spliceCount array.length actualStart deleteCount
  ((array.drop actualStart).take actualDeleteCount,
    array.take actualStart ++ items ++ array.drop (actualStart + actualDeleteCount))

/-- Modelled from the spec: `Array.prototype.spliceOne(index)`, a helper of the array shim
that is not part of `sorted-array.js`; `delete` uses it where the spec says it
"removes it" (the element found at `index`). -/
def spliceOne (array : List α) (index : Int) : List α :=
  array.eraseIdx index.toNat

/-- Modelled from the spec: `Array.prototype.deleteAll(value, equals)` of the array shim, not
part of `sorted-array.js`: "a generic linear scan-and-remove over the full storage (no
ordering assumption), returns count removed".  The result is the count and the array left. -/
def arrayDeleteAll (array : List α) (value : α) (equals : α → α → Bool) : Int × List α :=
  ((array.filter (fun x => equals value x)).length, array.filter (fun x => !equals value x))

/-! ## The search engine -/

/-- The loop `while (first <= last)` of `search`, run for at most `fuel` iterations, with the
middle of the interval as the source's comment reads it: the floor of half the sum.  On every
array of at most `2^30` elements this is the shift the source computes
(`searchLoop32_eq_searchTrace`). -/
def searchLoop [HasUndefined α] (array : List α) (value : α) (compare : α → α → Int) :
    Nat → Int → Int → Option Int
  | 0, first, last => if first ≤ last then none else some (-(first + 1))
  | fuel + 1, first, last =>
    if first ≤ last then
      let middle := (first + last) >>> (1 : Nat)
      let comparison := compare value (item array middle)
      if comparison > 0 then
        searchLoop array value compare fuel (middle + 1) last
      else if comparison < 0 then
        searchLoop array value compare fuel first (middle - 1)
      else
        some middle
    else
      some (-(first + 1))

/-- `search(array, value, compare)`.  The loop is given `array.length` iterations, which it
never uses up (`searchLoop_terminates`), so the second branch is never taken. -/
def search [HasUndefined α] (array : List α) (value : α) (compare : α → α → Int) : Int :=
  match searchLoop array value compare array.length 0 (array.length - 1) with
  | some index => index
  | none => -1

/-- The loop `while (index > 0 && equals(value, array[index - 1])) index--` of `searchFirst`,
by recursion on `index`. -/
def walkLeft [HasUndefined α] (array : List α) (value : α) (equals : α → α → Bool) : Nat → Nat
  | 0 => 0
  | index + 1 =>
    if equals value (item array index) then walkLeft array value equals index else index + 1

/-- The loops `while (index < last && test(array[index + 1])) index++` of `searchLast` and
`searchForInsertionIndex`, where `last = array.length - 1`.  `steps` is `last - index`, the
number of slots to the right of `index`: it is `0` exactly when `index < last` fails and
goes down by one when `index` goes up by one. -/
def walkRight [HasUndefined α] (array : List α) (test : α → Bool) : Nat → Int → Int
  | 0, index => index
  | steps + 1, index =>
    if test (item array (index + 1)) then walkRight array test steps (index + 1) else index

/-- `searchFirst(array, value, compare, equals)`. -/
def searchFirst [HasUndefined α] (array : List α) (value : α) (compare : α → α → Int)
    (equals : α → α → Bool) : Int :=
  let index := search array value compare
  if index < 0 then
    -1
  else
    let index : Int := walkLeft array value equals index.toNat
    if !equals value (item array index) then -1 else index

/-- `searchLast(array, value, compare, equals)`. -/
def searchLast [HasUndefined α] (array : List α) (value : α) (compare : α → α → Int)
    (equals : α → α → Bool) : Int :=
  let index := search array value compare
  if index < 0 then
    -1
  else
    let index := walkRight array (fun x => equals value x)
      ((array.length : Int) - 1 - index).toNat index
    if !equals value (item array index) then -1 else index

/-- `searchForInsertionIndex(array, value, compare)`. -/
def searchForInsertionIndex [HasUndefined α] (array : List α) (value : α)
    (compare : α → α → Int) : Int :=
  let index := search array value compare
  if index < 0 then
    -index - 1
  else
    let last : Int := (array.length : Int) - 1
    walkRight array (fun x => compare value x == 0) (last - index).toNat index

/-! ## The search with the 32-bit shift -/

/-- `ToInt32` of ECMAScript on an integer: the integer of `[-2^31, 2^31)` that differs from
`x` by a multiple of `2^32`. -/
def toInt32 (x : Int) : Int :=
  (x + 2147483648) % 4294967296 - 2147483648

/-- The JavaScript expression `x >> 1` on an integer `x`: `ToInt32` of `x`, shifted right by
one bit. -/
def shiftRight1 (x : Int) : Int :=
  toInt32 x >>> (1 : Nat)

/-- The loop `while (first <= last)` of `search` with `middle = (first + last) >> 1` as
JavaScript computes it, run for at most `fuel` iterations: the indices at which it reads the
array, one for each iteration, in order, and its result, `none` when the loop is still
running after `fuel` iterations. -/
def searchLoop32 [HasUndefined α] (array : List α) (value : α) (compare : α → α → Int) :
    Nat → Int → Int → List Int × Option Int
  | 0, first, last => ([], if first ≤ last then none else some (-(first + 1)))
  | fuel + 1, first, last =>
    if first ≤ last then
      let middle := shiftRight1 (first + last)
      let comparison := compare value (item array middle)
      if comparison > 0 then
        let r := searchLoop32 array value compare fuel (middle + 1) last
        (middle :: r.1, r.2)
      else if comparison < 0 then
        let r := searchLoop32 array value compare fuel first (middle - 1)
        (middle :: r.1, r.2)
      else
        ([middle], some middle)
    else
      ([], some (-(first + 1)))

/-- `search(array, value, compare)` as the code runs it, with the 32-bit shift; `none` when
its loop is still running after `fuel` iterations. -/
def search32 [HasUndefined α] (fuel : Nat) (array : List α) (value : α)
    (compare : α → α → Int) : Option Int :=
  (searchLoop32 array value compare fuel 0 ((array.length : Int) - 1)).2

/-- `searchForInsertionIndex(array, value, compare)` as the code runs it, on the result of
`search32`. -/
def searchForInsertionIndex32 [HasUndefined α] (fuel : Nat) (array : List α) (value : α)
    (compare : α → α → Int) : Option Int :=
  match search32 fuel array value compare with
  | none => none
  | some index =>
    if index < 0 then
      some (-index - 1)
    else
      let last : Int := (array.length : Int) - 1
      some (walkRight array (fun x => compare value x == 0) (last - index).toNat index)

/-! ## The container -/

/-- Which of the two hooks dispatched an event: `dispatchBeforeRangeChange` (before the
mutation) or `dispatchRangeChange` (after it). -/
inductive Phase where
  | before
  | after
deriving DecidableEq, Repr

/-- An event as the container hands it to the observable-range hooks: `(plus, minus, index)`. -/
structure RangeChange (α : Type) where
  phase : Phase
  plus : List α
  minus : List α
  index : Int
deriving DecidableEq, Repr

end SortedArray

/-- The fields of a `SortedArray` object: `array`, `contentEquals`, `contentCompare`,
`getDefault`, `length`, the flag `dispatchesRangeChanges` of the observable-range mixin, and
the events dispatched so far, oldest first. -/
structure SortedArray (α : Type) where
  array : List α
  contentEquals : α → α → Bool
  contentCompare : α → α → Int
  getDefault : α → α
  length : Int
  dispatchesRangeChanges : Bool
  dispatched : List (SortedArray.RangeChange α)

namespace SortedArray

variable {α : Type}

/-- `this.dispatchBeforeRangeChange(plus, minus, index)`: the event is recorded. -/
def dispatchBeforeRangeChange (s : SortedArray α) (plus minus : List α) (index : Int) :
    SortedArray α :=
  { s with dispatched := s.dispatched ++ [⟨Phase.before, plus, minus, index⟩] }

/-- `this.dispatchRangeChange(plus, minus, index)`: the event is recorded. -/
def dispatchRangeChange (s : SortedArray α) (plus minus : List α) (index : Int) :
    SortedArray α :=
  { s with dispatched := s.dispatched ++ [⟨Phase.after, plus, minus, index⟩] }

/-- `SortedArray.prototype.has(value)`, called without the unsupported second argument. -/
def has [HasUndefined α] (s : SortedArray α) (value : α) : Bool :=
  let index := search s.array value s.contentCompare
  decide (index ≥ 0) && s.contentEquals (item s.array index) value

/-- `SortedArray.prototype.add(value)`; the method returns `true`. -/
def add [HasUndefined α] (s : SortedArray α) (value : α) : SortedArray α :=
  let index := searchForInsertionIndex s.array value s.contentCompare
  let s := if s.dispatchesRangeChanges then dispatchBeforeRangeChange s [value] [] index else s
  let s := { s with array := (arraySplice s.array index (some 0) [value]).2 }
  let s := { s with length := s.length + 1 }
  if s.dispatchesRangeChanges then dispatchRangeChange s [value] [] index else s

/-- Modelled from the spec: `addEach(values)` of the generic-collection mixin, not part of
`sorted-array.js`: the values are "inserted one at a time", "each value independently located
and inserted in sorted position", in the order given. -/
def addEach [HasUndefined α] (s : SortedArray α) (values : List α) : SortedArray α :=
  values.foldl add s

/-- The constructor `SortedArray(values, equals, compare, getDefault)` on an array of values:
the storage starts empty, `length` is `0`, and `addEach(values)` fills it.  The three functions
are given (the defaults of the operators modules are not part of `sorted-array.js`). -/
def new [HasUndefined α] (values : List α) (equals : α → α → Bool) (compare : α → α → Int)
    (getDefault : α → α) : SortedArray α :=
  addEach
    { array := [], contentEquals := equals, contentCompare := compare, getDefault := getDefault,
      length := 0, dispatchesRangeChanges := false, dispatched := [] }
    values

/-- `SortedArray.prototype.delete(value)`, called without the unsupported second argument:
the returned boolean and the container after the call. -/
def delete [HasUndefined α] (s : SortedArray α) (value : α) : Bool × SortedArray α :=
  let index := searchFirst s.array value s.contentCompare s.contentEquals
  if index ≠ -1 then
    let s := if s.dispatchesRangeChanges then dispatchBeforeRangeChange s [] [value] index else s
    let s := { s with array := spliceOne s.array index }
    let s := { s with length := s.length - 1 }
    let s := if s.dispatchesRangeChanges then dispatchRangeChange s [] [value] index else s
    (true, s)
  else
    (false, s)

/-- `SortedArray.prototype.slice(start, stop)` on integer arguments; `stop = none` is
`Infinity`. -/
def slice (s : SortedArray α) (start : Int) (stop : Option Int) : List α :=
  arraySlice s.array start stop

/-- The loop `while (this.contentEquals(value, this.array[end])) end++` of `deleteAll`, run
for at most `fuel` iterations from `stop` (the variable `end`). -/
def scanRun [HasUndefined α] (array : List α) (value : α) (equals : α → α → Bool) :
    Nat → Int → Option Int
  | 0, stop => if equals value (item array stop) then none else some stop
  | fuel + 1, stop =>
    if equals value (item array stop) then scanRun array value equals fuel (stop + 1)
    else some stop

/-- `SortedArray.prototype.deleteAll(value, equals)`: the returned count and the container
after the call; `equals = none` is the call without an equality override.  `fuel` bounds the
iterations of the scanning loop; the result is `none` when the loop is still running after
`fuel` iterations. -/
def deleteAll [HasUndefined α] (fuel : Nat) (s : SortedArray α) (value : α)
    (equals : Option (α → α → Bool)) : Option (Int × SortedArray α) :=
  match equals with
  | some equals =>
    let r := arrayDeleteAll s.array value equals
    some (r.1, { s with array := r.2, length := s.length - r.1 })
  | none =>
    let start := searchFirst s.array value s.contentCompare s.contentEquals
    if start ≠ -1 then
      match scanRun s.array value s.contentEquals fuel start with
      | none => none
      | some stop =>
        let minus := slice s start (some stop)
        let s := if s.dispatchesRangeChanges then dispatchBeforeRangeChange s [] minus start else s
        let s := { s with array := (arraySplice s.array start (some minus.length) []).2 }
        let s := { s with length := s.length - minus.length }
        let s := if s.dispatchesRangeChanges then dispatchRangeChange s [] minus start else s
        some (minus.length, s)
    else
      some (0, s)

/-- `SortedArray.prototype.indexOf(value)`. -/
def indexOf [HasUndefined α] (s : SortedArray α) (value : α) : Int :=
  searchFirst s.array value s.contentCompare s.contentEquals

/-- `SortedArray.prototype.lastIndexOf(value)`. -/
def lastIndexOf [HasUndefined α] (s : SortedArray α) (value : α) : Int :=
  searchLast s.array value s.contentCompare s.contentEquals

/-- `SortedArray.prototype.findValue(value)`. -/
def findValue [HasUndefined α] (s : SortedArray α) (value : α) : Int :=
  searchFirst s.array value s.contentCompare s.contentEquals

/-- `SortedArray.prototype.findLastValue(value)`. -/
def findLastValue [HasUndefined α] (s : SortedArray α) (value : α) : Int :=
  searchLast s.array value s.contentCompare s.contentEquals

/-- `SortedArray.prototype.push(...values)`. -/
def push [HasUndefined α] (s : SortedArray α) (values : List α) : SortedArray α :=
  addEach s values

/-- `SortedArray.prototype.unshift(...values)`. -/
def unshift [HasUndefined α] (s : SortedArray α) (values : List α) : SortedArray α :=
  addEach s values

/-- `SortedArray.prototype.pop()`: the value of `this.array.pop()` (`undefined` on an empty
array) and the container after the call. -/
def pop [HasUndefined α] (s : SortedArray α) : α × SortedArray α :=
  let val := s.array.getLast?.getD undefined
  let s := { s with array := s.array.dropLast }
  (val, { s with length := s.array.length })

/-- `SortedArray.prototype.shift()`: the value of `this.array.shift()` (`undefined` on an empty
array) and the container after the call. -/
def shift [HasUndefined α] (s : SortedArray α) : α × SortedArray α :=
  let value := s.array.head?.getD undefined
  let s := { s with array := s.array.tail }
  (value, { s with length := s.array.length })

/-- `SortedArray.prototype.swap(index, length, plus)`: the returned array `minus` and the
container after the call.  `none` is an argument that is `undefined`. -/
def swap [HasUndefined α] (s : SortedArray α) (index length : Option Int) (plus : List α) :
    List α × SortedArray α :=
  if index = none ∧ length = none then
    ([], s)
  else
    let index := index.getD 0
    let index := if index < 0 then index + s.length else index
    let minus := slice s index (length.map (fun length => index + length))
    let s := if s.dispatchesRangeChanges then dispatchBeforeRangeChange s plus minus index else s
    let s := { s with array := (arraySplice s.array index length []).2 }
    let s := { s with length := s.length - minus.length }
    let s := if s.dispatchesRangeChanges then dispatchRangeChange s [] minus index else s
    (minus, addEach s plus)

/-- `SortedArray.prototype.splice(index, length, ...plus)`. -/
def splice [HasUndefined α] (s : SortedArray α) (index length : Option Int) (plus : List α) :
    List α × SortedArray α :=
  swap s index length plus

/-- `SortedArray.prototype.clear()`. -/
def clear (s : SortedArray α) : SortedArray α :=
  let minus := if s.dispatchesRangeChanges then s.array else []
  let s := if s.dispatchesRangeChanges then dispatchBeforeRangeChange s [] minus 0 else s
  let s := { s with length := 0 }
  let s := { s with array := [] }
  if s.dispatchesRangeChanges then dispatchRangeChange s [] minus 0 else s

/-! ## Folds -/

/-- `Array.prototype.reduce(callback, basis)`: the fold from the first element to the last;
`key` is the index of the first element of `array`. -/
def arrayReduce {β : Type} (callback : β → α → Int → β) : List α → Int → β → β
  | [], _, basis => basis
  | value :: rest, key, basis => arrayReduce callback rest (key + 1) (callback basis value key)

/-- `SortedArray.prototype.reduce(callback, basis)`: the callback is called with the
accumulated value, the element and its index (the receiver `thisp` and the fourth argument,
the collection, are left out). -/
def reduce {β : Type} (s : SortedArray α) (callback : β → α → Int → β) (basis : β) : β :=
  arrayReduce callback s.array 0 basis

/-- The two names that the body of `reduceRight` uses without declaring them: the function
is declared as `function ()`, with no parameters. -/
inductive FreeName where
  | callback
  | basis
deriving DecidableEq, Repr

/-- A thrown JavaScript error: the `ReferenceError` for a name that no scope binds. -/
inductive JsError where
  | referenceError (name : FreeName)
deriving DecidableEq, Repr

/-- `Array.prototype.reduceRight(function (basis, value, key) { return callback.call(...) },
basis)`: the fold from the last element to the first.  The inner function looks the name
`callback` up each time it is called; `outerCallback` is what the scopes around
`reduceRight` bind that name to, `none` when they bind nothing, and the call then throws. -/
def arrayReduceRight {β : Type} (outerCallback : Option (β → α → Int → β)) :
    List α → Int → β → Except JsError β
  | [], _, basis => Except.ok basis
  | value :: rest, key, basis =>
    match arrayReduceRight outerCallback rest (key + 1) basis with
    | Except.error e => Except.error e
    | Except.ok acc =>
      match outerCallback with
      | none => Except.error (JsError.referenceError FreeName.callback)
      | some callback => Except.ok (callback acc value key)

/-- `SortedArray.prototype.reduceRight`, called as `reduceRight(callback, basis)`.  The
function has no parameters, so the two arguments are not bound to anything (only
`arguments[2]` is read); the names `callback` and `basis` in its body are looked up in the
scopes around it.  The module declares neither, so they are bound only if the global object
has such a property: `outerCallback` and `outerBasis` are those bindings, `none` for a name
that is not bound.  The argument `basis` of `this.array.reduceRight(..., basis, this)` is
evaluated before the call. -/
def reduceRight {β : Type} (s : SortedArray α) (_callback : β → α → Int → β) (_basis : β)
    (outerCallback : Option (β → α → Int → β)) (outerBasis : Option β) : Except JsError β :=
  match outerBasis with
  | none => Except.error (JsError.referenceError FreeName.basis)
  | some basis => arrayReduceRight outerCallback s.array 0 basis

/-! ## The loops with a record of what they read, and the expected events -/

/-- The loop of `search` as in `searchLoop`, together with the indices at which it reads the
array, one for each iteration, in order. -/
def searchTrace [HasUndefined α] (array : List α) (value : α) (compare : α → α → Int) :
    Nat → Int → Int → List Int × Option Int
  | 0, first, last => ([], if first ≤ last then none else some (-(first + 1)))
  | fuel + 1, first, last =>
    if first ≤ last then
      let middle := (first + last) >>> (1 : Nat)
      let comparison := compare value (item array middle)
      if comparison > 0 then
        let r := searchTrace array value compare fuel (middle + 1) last
        (middle :: r.1, r.2)
      else if comparison < 0 then
        let r := searchTrace array value compare fuel first (middle - 1)
        (middle :: r.1, r.2)
      else
        ([middle], some middle)
    else
      ([], some (-(first + 1)))

/-- The scanning loop of `deleteAll` as in `scanRun`, together with the indices at which its
test reads the array, in order. -/
def scanTrace [HasUndefined α] (array : List α) (value : α) (equals : α → α → Bool) :
    Nat → Int → List Int × Option Int
  | 0, stop => ([stop], if equals value (item array stop) then none else some stop)
  | fuel + 1, stop =>
    if equals value (item array stop) then
      let r := scanTrace array value equals fuel (stop + 1)
      (stop :: r.1, r.2)
    else
      ([stop], some stop)

/-- The call that led from `s` to `t` was announced: the events dispatched in `t` are those
of `s` followed by new ones, among them a before-event and an after-event. -/
def Announced (s t : SortedArray α) : Prop :=
  ∃ events : List (RangeChange α), t.dispatched = s.dispatched ++ events ∧
    (∃ e ∈ events, e.phase = Phase.before) ∧ (∃ e ∈ events, e.phase = Phase.after)

/-- The events the specification expects of inserting `values` one at a time into `array`:
for each value, in order, a before-event and an after-event `(added = [value], removed = [],
index)`, where `index` is the insertion index of the value in the storage as it is when the
value is inserted. -/
def insertionEvents [HasUndefined α] (compare : α → α → Int) :
    List α → List α → List (RangeChange α)
  | _, [] => []
  | array, value :: values =>
    ⟨Phase.before, [value], [], searchForInsertionIndex array value compare⟩ ::
    ⟨Phase.after, [value], [], searchForInsertionIndex array value compare⟩ ::
    insertionEvents compare
      (arraySplice array (searchForInsertionIndex array value compare) (some 0) [value]).2 values

/-! ## The ordering laws and the sortedness of the storage -/

/-- The comparator `compare` is a total preorder: `compare a b` and `compare b a` have opposite
signs, and `compare a b ≤ 0` is transitive. -/
structure TotalPreorder (compare : α → α → Int) : Prop where
  opposite : ∀ a b, Int.sign (compare a b) = -Int.sign (compare b a)
  trans : ∀ a b c, compare a b ≤ 0 → compare b c ≤ 0 → compare a c ≤ 0

/-- The storage is sorted: `compare x y ≤ 0` for every two adjacent elements `x`, `y`. -/
def Sorted (compare : α → α → Int) : List α → Prop
  | [] => True
  | [_] => True
  | x :: y :: rest => compare x y ≤ 0 ∧ Sorted compare (y :: rest)

instance decidableSorted (compare : α → α → Int) : (storage : List α) →
    Decidable (Sorted compare storage)
  | [] => isTrue trivial
  | [_] => isTrue trivial
  | x :: y :: rest =>
    have : Decidable (Sorted compare (y :: rest)) := decidableSorted compare (y :: rest)
    inferInstanceAs (Decidable (compare x y ≤ 0 ∧ Sorted compare (y :: rest)))

/-- What `search` promises on a sorted array: `r` is either the index of an element that
`value` compares equal to, or the encoding `-(i + 1)` of the insertion index `i`, left of
which `value` compares greater and from which on it compares less. -/
def IsLocation [HasUndefined α] (array : List α) (value : α) (compare : α → α → Int)
    (r : Int) : Prop :=
  (0 ≤ r ∧ r < array.length ∧ compare value (item array r) = 0) ∨
  (r < 0 ∧ 0 ≤ -r - 1 ∧ -r - 1 ≤ array.length ∧
    (∀ j : Int, 0 ≤ j → j < -r - 1 → 0 < compare value (item array j)) ∧
    (∀ j : Int, -r - 1 ≤ j → j < array.length → compare value (item array j) < 0))

/-- The public mutating operations, as calls with their arguments. -/
inductive Op (α : Type) where
  | add (value : α)
  | delete (value : α)
  | deleteAll (value : α) (equals : Option (α → α → Bool))
  | push (values : List α)
  | unshift (values : List α)
  | pop
  | shift
  | swap (index length : Option Int) (plus : List α)
  | splice (index length : Option Int) (plus : List α)
  | clear

/-- The container after one call; `none` when the scanning loop of `deleteAll` is still
running after `fuel` iterations. -/
def Op.run [HasUndefined α] (fuel : Nat) (s : SortedArray α) : Op α → Option (SortedArray α)
  | Op.add value => some (s.add value)
  | Op.delete value => some (s.delete value).2
  | Op.deleteAll value equals => (s.deleteAll fuel value equals).map Prod.snd
  | Op.push values => some (s.push values)
  | Op.unshift values => some (s.unshift values)
  | Op.pop => some s.pop.2
  | Op.shift => some s.shift.2
  | Op.swap index length plus => some (s.swap index length plus).2
  | Op.splice index length plus => some (s.splice index length plus).2
  | Op.clear => some s.clear

/-- The container after a sequence of calls, first call first. -/
def runAll [HasUndefined α] (fuel : Nat) (s : SortedArray α) : List (Op α) → Option (SortedArray α)
  | [] => some s
  | op :: ops => (op.run fuel s).bind (fun s => runAll fuel s ops)

/-! ## Values of the worked examples -/

/-- The JavaScript values of the worked examples: `undefined`, and records with a numeric sort
key and a tag that tells records of the same key apart. -/
inductive Val where
  | undefined
  | record (key : Int) (tag : Nat)
deriving DecidableEq, Repr

instance : HasUndefined Val := ⟨Val.undefined⟩

/-- The number `n` as a value of the examples. -/
def num (n : Int) : Val := Val.record n 0

/-- A comparator of the examples: records by the difference of their keys, `undefined` after
every record. -/
def byKey : Val → Val → Int
  | Val.undefined, Val.undefined => 0
  | Val.undefined, Val.record _ _ => 1
  | Val.record _ _, Val.undefined => -1
  | Val.record k _, Val.record j _ => k - j

/-- The equality that holds exactly when `byKey` returns `0`. -/
def sameKey (a b : Val) : Bool := byKey a b == 0

/-- The equality that holds exactly for one and the same value; finer than `byKey`. -/
def sameValue (a b : Val) : Bool := a == b

/-- The equality that holds between any two values. -/
def anyValue (_ _ : Val) : Bool := true

/-- A comparator of the examples that takes the first value for the greater, whatever the
two values are. -/
def alwaysGreater (_ _ : Val) : Int := 1

/-- The storage of `2^30 + 1` zeros. -/
def hugeStorage : List Val := List.replicate 1073741825 (num 0)

/-- A container of the examples with the given storage, `length` in step with it, and no
events dispatched so far. -/
def ofStorage (storage : List Val) (equals : Val → Val → Bool) (notify : Bool) :
    SortedArray Val :=
  { array := storage, contentEquals := equals, contentCompare := byKey,
    getDefault := fun _ => Val.undefined, length := storage.length,
    dispatchesRangeChanges := notify, dispatched := [] }

end SortedArray

/-! # Theorems -/

namespace SortedArray

variable {α : Type}

/-! ## Consequences of the ordering laws -/

theorem sign_trichotomy (x : Int) :
    (x < 0 ∧ x.sign = -1) ∨ (x = 0 ∧ x.sign = 0) ∨ (0 < x ∧ x.sign = 1) := by
  rcases lt_trichotomy x 0 with h | h | h
  · exact Or.inl ⟨h, Int.sign_eq_neg_one_iff_neg.mpr h⟩
  · exact Or.inr (Or.inl ⟨h, Int.sign_eq_zero_iff_zero.mpr h⟩)
  · exact Or.inr (Or.inr ⟨h, Int.sign_eq_one_iff_pos.mpr h⟩)

theorem TotalPreorder.pos_iff {compare : α → α → Int} (tp : TotalPreorder compare) (a b : α) :
    0 < compare a b ↔ compare b a < 0 := by
  have h := tp.opposite a b
  rcases sign_trichotomy (compare a b) with h1 | h1 | h1 <;>
    rcases sign_trichotomy (compare b a) with h2 | h2 | h2 <;>
    constructor <;> intro _ <;> omega

theorem TotalPreorder.zero_iff {compare : α → α → Int} (tp : TotalPreorder compare) (a b : α) :
    compare a b = 0 ↔ compare b a = 0 := by
  have h := tp.opposite a b
  rcases sign_trichotomy (compare a b) with h1 | h1 | h1 <;>
    rcases sign_trichotomy (compare b a) with h2 | h2 | h2 <;>
    constructor <;> intro _ <;> omega

theorem TotalPreorder.refl {compare : α → α → Int} (tp : TotalPreorder compare) (a : α) :
    compare a a = 0 := by
  have h := tp.opposite a a
  rcases sign_trichotomy (compare a a) with h1 | h1 | h1 <;> omega

/-- Two values that both compare equal to a third compare equal to each other. -/
theorem TotalPreorder.zero_trans {compare : α → α → Int} (tp : TotalPreorder compare)
    (a b c : α) (hab : compare a b = 0) (hbc : compare b c = 0) : compare a c = 0 := by
  have h1 := tp.trans a b c (by omega) (by omega)
  have h2 := tp.trans c b a (by have := (tp.zero_iff b c).mp hbc; omega)
    (by have := (tp.zero_iff a b).mp hab; omega)
  have h3 := tp.pos_iff c a
  have h4 := tp.pos_iff a c
  omega

/-! ## Sortedness -/

theorem Sorted.pairwise {compare : α → α → Int} (tp : TotalPreorder compare) :
    ∀ {storage : List α}, Sorted compare storage →
      storage.Pairwise (fun x y => compare x y ≤ 0)
  | [], _ => List.Pairwise.nil
  | [_], _ => List.pairwise_singleton _ _
  | x :: y :: rest, h => by
    have ih := Sorted.pairwise tp h.2
    refine List.Pairwise.cons ?_ ih
    intro z hz
    rcases List.mem_cons.mp hz with rfl | hz
    · exact h.1
    · exact tp.trans x y z h.1 (List.rel_of_pairwise_cons ih hz)

theorem Sorted.of_pairwise {compare : α → α → Int} :
    ∀ {storage : List α}, storage.Pairwise (fun x y => compare x y ≤ 0) →
      Sorted compare storage
  | [], _ => trivial
  | [_], _ => trivial
  | x :: y :: rest, h => by
    have h1 := List.rel_of_pairwise_cons h (List.mem_cons_self y rest)
    exact ⟨h1, Sorted.of_pairwise (List.Pairwise.of_cons h)⟩

/-- A sublist of a sorted storage is sorted. -/
theorem Sorted.sublist {compare : α → α → Int} (tp : TotalPreorder compare)
    {storage kept : List α} (hsub : kept.Sublist storage) (hs : Sorted compare storage) :
    Sorted compare kept :=
  Sorted.of_pairwise (List.Pairwise.sublist hsub (hs.pairwise tp))

theorem item_natCast [HasUndefined α] (array : List α) (k : Nat) (h : k < array.length) :
    item array (k : Int) = array[k] := by
  unfold item
  simp [List.getD_eq_getElem, h]

theorem item_mem [HasUndefined α] (array : List α) (i : Int) (h0 : 0 ≤ i)
    (h : i < array.length) : item array i ∈ array := by
  obtain ⟨k, rfl⟩ := Int.eq_ofNat_of_zero_le h0
  have hk : k < array.length := by omega
  rw [item_natCast array k hk]
  exact List.getElem_mem hk

theorem exists_item_of_mem [HasUndefined α] {array : List α} {x : α} (hx : x ∈ array) :
    ∃ i : Int, 0 ≤ i ∧ i < array.length ∧ item array i = x := by
  obtain ⟨k, hk, rfl⟩ := List.mem_iff_getElem.mp hx
  exact ⟨k, by omega, by omega, item_natCast array k hk⟩

theorem item_cons_succ [HasUndefined α] (x : α) (array : List α) (i : Nat) :
    item (x :: array) ((i : Int) + 1) = item array (i : Int) := by
  have e : ((i : Int) + 1).toNat = i + 1 := by omega
  unfold item
  rw [if_neg (by omega), if_neg (by omega), e, Int.toNat_ofNat]
  rfl

/-- The definition of `Sorted` read by indices: `compare storage[i] storage[i + 1] ≤ 0` for
every two adjacent indices. -/
theorem sorted_iff_adjacent [HasUndefined α] (compare : α → α → Int) :
    ∀ storage : List α, Sorted compare storage ↔
      ∀ i : Nat, i + 1 < storage.length →
        compare (item storage (i : Int)) (item storage ((i : Int) + 1)) ≤ 0
  | [] => ⟨fun _ i hi => by simp at hi, fun _ => trivial⟩
  | [_] => ⟨fun _ i hi => by simp at hi, fun _ => trivial⟩
  | x :: y :: rest => by
    have ih := sorted_iff_adjacent compare (y :: rest)
    constructor
    · rintro ⟨h1, h2⟩ i hi
      cases i with
      | zero => exact h1
      | succ i =>
        have h := ih.mp h2 i (by simpa using hi)
        push_cast
        rw [item_cons_succ x (y :: rest) i]
        have e : (i : Int) + 1 + 1 = ((i + 1 : Nat) : Int) + 1 := by omega
        rw [e, item_cons_succ x (y :: rest) (i + 1)]
        push_cast
        exact h
    · intro h
      refine ⟨h 0 (by simp), ih.mpr ?_⟩
      intro i hi
      have h1 := h (i + 1) (by simpa using hi)
      push_cast at h1
      rw [item_cons_succ x (y :: rest) i] at h1
      have e : (i : Int) + 1 + 1 = ((i + 1 : Nat) : Int) + 1 := by omega
      rw [e, item_cons_succ x (y :: rest) (i + 1)] at h1
      push_cast at h1
      exact h1

/-- In a sorted storage the element at a smaller index compares `≤ 0` to the element at a
larger one. -/
theorem Sorted.item_le [HasUndefined α] {compare : α → α → Int} (tp : TotalPreorder compare)
    {array : List α} (hs : Sorted compare array) (i j : Int) (h0 : 0 ≤ i) (hij : i ≤ j)
    (hj : j < array.length) : compare (item array i) (item array j) ≤ 0 := by
  obtain ⟨a, rfl⟩ := Int.eq_ofNat_of_zero_le h0
  obtain ⟨b, rfl⟩ := Int.eq_ofNat_of_zero_le (le_trans h0 hij)
  have hb : b < array.length := by omega
  have ha : a < array.length := by omega
  rw [item_natCast array a ha, item_natCast array b hb]
  rcases Nat.lt_or_ge a b with hab | hab
  · exact List.pairwise_iff_getElem.mp (hs.pairwise tp) a b ha hb hab
  · have : a = b := by omega
    subst this
    exact le_of_eq (tp.refl _)

/-- To the right of an element that `value` compares `≤ 0` to, `value` compares `≤ 0`. -/
theorem Sorted.value_le_right [HasUndefined α] {compare : α → α → Int}
    (tp : TotalPreorder compare) {array : List α} (hs : Sorted compare array) (value : α)
    (i j : Int) (h0 : 0 ≤ i) (hij : i ≤ j) (hj : j < array.length)
    (h : compare value (item array i) ≤ 0) : compare value (item array j) ≤ 0 :=
  tp.trans _ _ _ h (hs.item_le tp i j h0 hij hj)

/-- To the left of an element that `value` compares `≥ 0` to, `value` compares `≥ 0`. -/
theorem Sorted.value_ge_left [HasUndefined α] {compare : α → α → Int}
    (tp : TotalPreorder compare) {array : List α} (hs : Sorted compare array) (value : α)
    (i j : Int) (h0 : 0 ≤ i) (hij : i ≤ j) (hj : j < array.length)
    (h : 0 ≤ compare value (item array j)) : 0 ≤ compare value (item array i) := by
  have h1 : compare (item array j) value ≤ 0 := by
    have := tp.pos_iff (item array j) value
    have := tp.pos_iff value (item array j)
    omega
  have h2 := tp.trans _ _ _ (hs.item_le tp i j h0 hij hj) h1
  have := tp.pos_iff (item array i) value
  have := tp.pos_iff value (item array i)
  omega

/-! ## Binary search -/

theorem middle_bounds (first last : Int) (h : first ≤ last) :
    first ≤ (first + last) >>> (1 : Nat) ∧ (first + last) >>> (1 : Nat) ≤ last := by
  have e : (first + last) >>> (1 : Nat) = (first + last) / 2 := by
    rw [Int.shiftRight_eq_div_pow]
    norm_num
  rw [e]
  omega

theorem searchLoop_spec [HasUndefined α] {compare : α → α → Int} (tp : TotalPreorder compare)
    {array : List α} (hs : Sorted compare array) (value : α) :
    ∀ (fuel : Nat) (first last : Int), 0 ≤ first → last < array.length → first ≤ last + 1 →
      (∀ j : Int, 0 ≤ j → j < first → 0 < compare value (item array j)) →
      (∀ j : Int, last < j → j < array.length → compare value (item array j) < 0) →
      last - first + 1 ≤ fuel →
      ∃ r, searchLoop array value compare fuel first last = some r ∧
        IsLocation array value compare r := by
  have hexit : ∀ (first last : Int), 0 ≤ first → last < array.length → first ≤ last + 1 →
      (∀ j : Int, 0 ≤ j → j < first → 0 < compare value (item array j)) →
      (∀ j : Int, last < j → j < array.length → compare value (item array j) < 0) →
      ¬ first ≤ last → IsLocation array value compare (-(first + 1)) := by
    intro first last h0 hl hfl hlo hhi hnot
    refine Or.inr ⟨by omega, by omega, by omega, ?_, ?_⟩
    · intro j hj0 hj
      exact hlo j hj0 (by omega)
    · intro j hj hjn
      exact hhi j (by omega) hjn
  intro fuel
  induction fuel with
  | zero =>
    intro first last h0 hl hfl hlo hhi hfuel
    have hnot : ¬ first ≤ last := by omega
    exact ⟨-(first + 1), by simp [searchLoop, hnot], hexit first last h0 hl hfl hlo hhi hnot⟩
  | succ fuel ih =>
    intro first last h0 hl hfl hlo hhi hfuel
    by_cases hle : first ≤ last
    · obtain ⟨hm1, hm2⟩ := middle_bounds first last hle
      rcases lt_trichotomy (compare value (item array ((first + last) >>> (1 : Nat)))) 0 with hc | hc | hc
      · have hstep : searchLoop array value compare (fuel + 1) first last =
            searchLoop array value compare fuel first ((first + last) >>> (1 : Nat) - 1) := by
          simp [searchLoop, hle, hc, not_lt.mpr (le_of_lt hc)]
        rw [hstep]
        refine ih first _ h0 (by omega) (by omega) hlo ?_ (by omega)
        intro j hj hjn
        by_contra hcon
        have := hs.value_ge_left tp value ((first + last) >>> (1 : Nat)) j (by omega) (by omega) hjn
          (by omega)
        omega
      · exact ⟨(first + last) >>> (1 : Nat), by simp [searchLoop, hle, hc],
          Or.inl ⟨by omega, by omega, hc⟩⟩
      · have hstep : searchLoop array value compare (fuel + 1) first last =
            searchLoop array value compare fuel ((first + last) >>> (1 : Nat) + 1) last := by
          simp [searchLoop, hle, hc]
        rw [hstep]
        refine ih _ last (by omega) hl (by omega) ?_ hhi (by omega)
        intro j hj0 hj
        by_contra hcon
        have := hs.value_le_right tp value j ((first + last) >>> (1 : Nat)) hj0 (by omega) (by omega)
          (by omega)
        omega
    · exact ⟨-(first + 1), by simp [searchLoop, hle], hexit first last h0 hl hfl hlo hhi hle⟩

theorem search_spec [HasUndefined α] {compare : α → α → Int} (tp : TotalPreorder compare)
    {array : List α} (hs : Sorted compare array) (value : α) :
    IsLocation array value compare (search array value compare) := by
  obtain ⟨r, hr, hloc⟩ := searchLoop_spec tp hs value array.length 0 (array.length - 1)
    (le_refl 0) (by omega) (by omega) (fun j h0 h => by omega) (fun j h hn => by omega)
    (by omega)
  unfold search
  rw [hr]
  exact hloc

theorem IsLocation.no_equal_of_neg [HasUndefined α] {array : List α} {value : α}
    {compare : α → α → Int} {r : Int} (h : IsLocation array value compare r) (hr : r < 0) :
    ∀ x ∈ array, compare value x ≠ 0 := by
  intro x hx
  obtain ⟨i, hi0, hin, rfl⟩ := exists_item_of_mem hx
  rcases h with h | ⟨_, _, _, hlo, hhi⟩
  · omega
  · rcases lt_or_le i (-r - 1) with hlt | hge
    · have := hlo i hi0 hlt
      omega
    · have := hhi i hge hin
      omega

/-! ## The linear walks -/

theorem walkLeft_spec [HasUndefined α] (array : List α) (value : α) (equals : α → α → Bool) :
    ∀ k : Nat, walkLeft array value equals k ≤ k ∧
      (∀ j : Nat, walkLeft array value equals k ≤ j → j < k →
        equals value (item array (j : Int)) = true) ∧
      (∀ p : Nat, walkLeft array value equals k = p + 1 →
        equals value (item array (p : Int)) = false) := by
  intro k
  induction k with
  | zero =>
    refine ⟨by simp [walkLeft], ?_, ?_⟩
    · intro j _ hj
      omega
    · intro p hp
      simp [walkLeft] at hp
  | succ k ih =>
    obtain ⟨ih1, ih2, ih3⟩ := ih
    by_cases hc : equals value (item array (k : Int)) = true
    · have e : walkLeft array value equals (k + 1) = walkLeft array value equals k := by
        simp [walkLeft, hc]
      rw [e]
      refine ⟨by omega, ?_, ih3⟩
      intro j hj1 hj2
      rcases Nat.lt_or_ge j k with hlt | hge
      · exact ih2 j hj1 hlt
      · have : j = k := by omega
        subst this
        exact hc
    · have e : walkLeft array value equals (k + 1) = k + 1 := by
        simp [walkLeft, hc]
      rw [e]
      refine ⟨le_refl _, ?_, ?_⟩
      · intro j hj1 hj2
        omega
      · intro p hp
        have : p = k := by omega
        subst this
        simpa using hc

theorem walkRight_spec [HasUndefined α] (array : List α) (test : α → Bool) :
    ∀ (steps : Nat) (index : Int), index ≤ walkRight array test steps index ∧
      walkRight array test steps index ≤ index + steps ∧
      (∀ j : Int, index < j → j ≤ walkRight array test steps index →
        test (item array j) = true) ∧
      (walkRight array test steps index = index + steps ∨
        test (item array (walkRight array test steps index + 1)) = false) := by
  intro steps
  induction steps with
  | zero =>
    intro index
    refine ⟨by simp [walkRight], by simp [walkRight], ?_, Or.inl (by simp [walkRight])⟩
    intro j hj1 hj2
    simp [walkRight] at hj2
    omega
  | succ steps ih =>
    intro index
    by_cases hc : test (item array (index + 1)) = true
    · have e : walkRight array test (steps + 1) index = walkRight array test steps (index + 1) := by
        simp [walkRight, hc]
      rw [e]
      obtain ⟨ih1, ih2, ih3, ih4⟩ := ih (index + 1)
      refine ⟨by omega, by push_cast; omega, ?_, ?_⟩
      · intro j hj1 hj2
        rcases lt_or_le (index + 1) j with hlt | hge
        · exact ih3 j hlt hj2
        · have : j = index + 1 := by omega
          subst this
          exact hc
      · rcases ih4 with h | h
        · exact Or.inl (by push_cast; omega)
        · exact Or.inr h
    · have e : walkRight array test (steps + 1) index = index := by
        simp [walkRight, hc]
      rw [e]
      refine ⟨le_refl _, by push_cast; omega, ?_, Or.inr (by simpa using hc)⟩
      intro j hj1 hj2
      omega

/-! ## First and last occurrence -/

/-- An index between two indices at which `value` compares equal is one at which `value`
compares equal. -/
theorem Sorted.zero_between [HasUndefined α] {compare : α → α → Int}
    (tp : TotalPreorder compare) {array : List α} (hs : Sorted compare array) (value : α)
    (i j k : Int) (h0 : 0 ≤ i) (hij : i ≤ j) (hjk : j ≤ k) (hk : k < array.length)
    (hi : compare value (item array i) = 0) (hk0 : compare value (item array k) = 0) :
    compare value (item array j) = 0 := by
  have h1 := hs.value_le_right tp value i j h0 hij (by omega) (by omega)
  have h2 := hs.value_ge_left tp value j k (by omega) hjk hk (by omega)
  omega

theorem searchFirst_least [HasUndefined α] {compare : α → α → Int} (tp : TotalPreorder compare)
    {array : List α} (hs : Sorted compare array) (value : α) (equals : α → α → Bool)
    (hloc : ∀ x ∈ array, equals value x = true ↔ compare value x = 0) :
    ((∃ x ∈ array, equals value x = true) →
      0 ≤ searchFirst array value compare equals ∧
      searchFirst array value compare equals < array.length ∧
      equals value (item array (searchFirst array value compare equals)) = true ∧
      ∀ j : Int, 0 ≤ j → j < searchFirst array value compare equals →
        equals value (item array j) = false) ∧
    (searchFirst array value compare equals = -1 ↔ ∀ x ∈ array, equals value x = false) := by
  have hloc0 := search_spec tp hs value
  by_cases hneg : search array value compare < 0
  · have hr : searchFirst array value compare equals = -1 := by
      simp [searchFirst, hneg]
    have hnone : ∀ x ∈ array, equals value x = false := by
      intro x hx
      have h1 := hloc0.no_equal_of_neg hneg x hx
      have h2 := hloc x hx
      cases h : equals value x
      · rfl
      · exact absurd (h2.mp h) h1
    rw [hr]
    refine ⟨?_, ?_⟩
    · rintro ⟨x, hx, hex⟩
      rw [hnone x hx] at hex
      cases hex
    · exact ⟨fun _ => hnone, fun _ => rfl⟩
  · rcases hloc0 with ⟨hp0, hpn, hpc⟩ | ⟨h, _⟩
    swap
    · omega
    obtain ⟨p, hp⟩ := Int.eq_ofNat_of_zero_le hp0
    obtain ⟨hw1, hw2, hw3⟩ := walkLeft_spec array value equals p
    have hmn : ((walkLeft array value equals p : Nat) : Int) < array.length := by
      rw [hp] at hpn
      omega
    have hem : equals value (item array ((walkLeft array value equals p : Nat) : Int)) = true := by
      rcases Nat.lt_or_ge (walkLeft array value equals p) p with hlt | hge
      · exact hw2 _ (le_refl _) hlt
      · have e : walkLeft array value equals p = p := by omega
        rw [e, ← hp]
        exact (hloc _ (item_mem array _ hp0 hpn)).mpr hpc
    have hr : searchFirst array value compare equals =
        ((walkLeft array value equals p : Nat) : Int) := by
      simp [searchFirst, hneg, hp, hem]
    rw [hr]
    refine ⟨fun _ => ⟨by omega, hmn, hem, ?_⟩, ?_⟩
    · intro j hj0 hj
      cases hej : equals value (item array j)
      · rfl
      · exfalso
        obtain ⟨q, hq⟩ : ∃ q : Nat, walkLeft array value equals p = q + 1 :=
          ⟨walkLeft array value equals p - 1, by omega⟩
        have hq3 := hw3 q hq
        have hjc := (hloc _ (item_mem array j hj0 (by omega))).mp hej
        have hqc := hs.zero_between tp value j q (walkLeft array value equals p)
          hj0 (by omega) (by omega) hmn hjc
          ((hloc _ (item_mem array _ (by omega) hmn)).mp hem)
        have := (hloc _ (item_mem array q (by omega) (by omega))).mpr hqc
        rw [hq3] at this
        cases this
    · constructor
      · intro h
        omega
      · intro h
        have := h _ (item_mem array _ (by omega) hmn)
        rw [hem] at this
        cases this

theorem searchLast_greatest [HasUndefined α] {compare : α → α → Int} (tp : TotalPreorder compare)
    {array : List α} (hs : Sorted compare array) (value : α) (equals : α → α → Bool)
    (hloc : ∀ x ∈ array, equals value x = true ↔ compare value x = 0) :
    ((∃ x ∈ array, equals value x = true) →
      0 ≤ searchLast array value compare equals ∧
      searchLast array value compare equals < array.length ∧
      equals value (item array (searchLast array value compare equals)) = true ∧
      ∀ j : Int, searchLast array value compare equals < j → j < array.length →
        equals value (item array j) = false) ∧
    (searchLast array value compare equals = -1 ↔ ∀ x ∈ array, equals value x = false) := by
  have hloc0 := search_spec tp hs value
  by_cases hneg : search array value compare < 0
  · have hr : searchLast array value compare equals = -1 := by
      simp [searchLast, hneg]
    have hnone : ∀ x ∈ array, equals value x = false := by
      intro x hx
      have h1 := hloc0.no_equal_of_neg hneg x hx
      have h2 := hloc x hx
      cases h : equals value x
      · rfl
      · exact absurd (h2.mp h) h1
    rw [hr]
    refine ⟨?_, ?_⟩
    · rintro ⟨x, hx, hex⟩
      rw [hnone x hx] at hex
      cases hex
    · exact ⟨fun _ => hnone, fun _ => rfl⟩
  · rcases hloc0 with ⟨hp0, hpn, hpc⟩ | ⟨h, _⟩
    swap
    · omega
    obtain ⟨hw1, hw2, hw3, hw4⟩ := walkRight_spec array (fun x => equals value x)
      ((array.length : Int) - 1 - search array value compare).toNat (search array value compare)
    generalize hm : walkRight array (fun x => equals value x)
      ((array.length : Int) - 1 - search array value compare).toNat
      (search array value compare) = m at hw1 hw2 hw3 hw4
    have hsteps : (((array.length : Int) - 1 - search array value compare).toNat : Int) =
        (array.length : Int) - 1 - search array value compare := by
      omega
    rw [hsteps] at hw2 hw4
    have hem : equals value (item array m) = true := by
      rcases lt_or_le (search array value compare) m with hlt | hge
      · exact hw3 m hlt (le_refl _)
      · have e : m = search array value compare := by omega
        rw [e]
        exact (hloc _ (item_mem array _ hp0 hpn)).mpr hpc
    have hr : searchLast array value compare equals = m := by
      simp [searchLast, hneg, hm, hem]
    rw [hr]
    refine ⟨fun _ => ⟨by omega, by omega, hem, ?_⟩, ?_⟩
    · intro j hj hjn
      cases hej : equals value (item array j)
      · rfl
      · exfalso
        rcases hw4 with h | h
        · omega
        · have hjc := (hloc _ (item_mem array j (by omega) hjn)).mp hej
          have hqc := hs.zero_between tp value m (m + 1) j (by omega) (by omega) (by omega) hjn
            ((hloc _ (item_mem array _ (by omega) (by omega))).mp hem) hjc
          have := (hloc _ (item_mem array (m + 1) (by omega) (by omega))).mpr hqc
          rw [h] at this
          cases this
    · constructor
      · intro h
        omega
      · intro h
        have := h _ (item_mem array m (by omega) (by omega))
        rw [hem] at this
        cases this

theorem searchFirst_shape [HasUndefined α] {compare : α → α → Int} (tp : TotalPreorder compare)
    {array : List α} (hs : Sorted compare array) (value : α) (equals : α → α → Bool) :
    searchFirst array value compare equals = -1 ∨
    (0 ≤ searchFirst array value compare equals ∧
      searchFirst array value compare equals < array.length ∧
      equals value (item array (searchFirst array value compare equals)) = true ∧
      (searchFirst array value compare equals = 0 ∨
        equals value (item array (searchFirst array value compare equals - 1)) = false)) := by
  have hloc0 := search_spec tp hs value
  by_cases hneg : search array value compare < 0
  · exact Or.inl (by simp [searchFirst, hneg])
  · rcases hloc0 with ⟨hp0, hpn, hpc⟩ | ⟨h, _⟩
    swap
    · omega
    obtain ⟨p, hp⟩ := Int.eq_ofNat_of_zero_le hp0
    obtain ⟨hw1, hw2, hw3⟩ := walkLeft_spec array value equals p
    cases hem : equals value (item array ((walkLeft array value equals p : Nat) : Int))
    · exact Or.inl (by simp [searchFirst, hneg, hp, hem])
    · have hr : searchFirst array value compare equals =
          ((walkLeft array value equals p : Nat) : Int) := by
        simp [searchFirst, hneg, hp, hem]
      rw [hr]
      refine Or.inr ⟨by omega, by omega, hem, ?_⟩
      rcases Nat.eq_zero_or_pos (walkLeft array value equals p) with h0 | hpos
      · exact Or.inl (by omega)
      · obtain ⟨q, hq⟩ : ∃ q : Nat, walkLeft array value equals p = q + 1 :=
          ⟨walkLeft array value equals p - 1, by omega⟩
        have hq3 := hw3 q hq
        have e : ((walkLeft array value equals p : Nat) : Int) - 1 = (q : Int) := by omega
        rw [e]
        exact Or.inr hq3

/-! ## The comparator of the worked examples -/

theorem byKey_totalPreorder : TotalPreorder byKey := by
  constructor
  · intro a b
    cases a <;> cases b <;> simp [byKey]
    rename_i k _ j _
    rw [← Int.sign_neg]
    congr 1
    omega
  · intro a b c
    cases a <;> cases b <;> cases c <;> simp [byKey]
    omega

theorem sameKey_iff (a b : Val) : sameKey a b = true ↔ byKey a b = 0 := by
  simp [sameKey]

theorem sameValue_fine (a b : Val) (h : sameValue a b = true) : byKey a b = 0 := by
  have e : a = b := by simpa [sameValue] using h
  subst e
  exact byKey_totalPreorder.refl a

/-! ## Results of the search routines -/

/-- C5: on a storage sorted under a total-preorder `compare`, with `equals a b` holding exactly
when `compare a b = 0`, `indexOf value` (and `findValue value`) is the smallest index whose
element is `equals` to `value` when there is one, and is `-1` exactly when no element is
`equals` to `value`. -/
theorem indexOf_first_occurrence [HasUndefined α] (s : SortedArray α)
    (tp : TotalPreorder s.contentCompare) (hs : Sorted s.contentCompare s.array)
    (heq : ∀ a b, s.contentEquals a b = true ↔ s.contentCompare a b = 0) (value : α) :
    s.findValue value = s.indexOf value ∧
    ((∃ x ∈ s.array, s.contentEquals value x = true) →
      0 ≤ s.indexOf value ∧ s.indexOf value < s.array.length ∧
      s.contentEquals value (item s.array (s.indexOf value)) = true ∧
      ∀ j : Int, 0 ≤ j → j < s.indexOf value →
        s.contentEquals value (item s.array j) = false) ∧
    (s.indexOf value = -1 ↔ ∀ x ∈ s.array, s.contentEquals value x = false) :=
  ⟨rfl, searchFirst_least tp hs value s.contentEquals (fun x _ => heq value x)⟩

/-- The statement of C5 at the storage `[1, 3, 3, 3, 5]` and the value `3`: the hypotheses hold
there and `indexOf 3` is `1`. -/
theorem indexOf_first_occurrence_witness :
    TotalPreorder byKey ∧ Sorted byKey [num 1, num 3, num 3, num 3, num 5] ∧
    (∀ a b, sameKey a b = true ↔ byKey a b = 0) ∧
    (ofStorage [num 1, num 3, num 3, num 3, num 5] sameKey false).indexOf (num 3) = 1 ∧
    (ofStorage [num 1, num 3, num 3, num 3, num 5] sameKey false).findValue (num 3) = 1 ∧
    ((ofStorage [num 1, num 3, num 3, num 3, num 5] sameKey false).indexOf (num 3) = -1 ↔
      ∀ x ∈ (ofStorage [num 1, num 3, num 3, num 3, num 5] sameKey false).array,
        sameKey (num 3) x = false) :=
  ⟨byKey_totalPreorder, by decide, sameKey_iff, by decide, by decide,
    (indexOf_first_occurrence (ofStorage [num 1, num 3, num 3, num 3, num 5] sameKey false)
      byKey_totalPreorder (by decide) sameKey_iff (num 3)).2.2⟩

/-- C6, as amended: on a storage sorted under a total-preorder `compare`, with an `equals`
that holds only between values that compare equal, `indexOf value` is `-1` or an index whose
element is `equals` to `value` and whose predecessor, if there is one, is not; it is `-1`
whenever no element is `equals` to `value`; and when every element that compares equal to
`value` is `equals` to it, `indexOf value` is the smallest index whose element is `equals` to
`value`, provided there is one. -/
theorem indexOf_finer_equals [HasUndefined α] (s : SortedArray α)
    (tp : TotalPreorder s.contentCompare) (hs : Sorted s.contentCompare s.array)
    (hfine : ∀ a b, s.contentEquals a b = true → s.contentCompare a b = 0) (value : α) :
    (s.indexOf value = -1 ∨
      (0 ≤ s.indexOf value ∧ s.indexOf value < s.array.length ∧
        s.contentEquals value (item s.array (s.indexOf value)) = true ∧
        (s.indexOf value = 0 ∨
          s.contentEquals value (item s.array (s.indexOf value - 1)) = false))) ∧
    ((∀ x ∈ s.array, s.contentEquals value x = false) → s.indexOf value = -1) ∧
    ((∀ x ∈ s.array, s.contentCompare value x = 0 → s.contentEquals value x = true) →
      (∃ x ∈ s.array, s.contentEquals value x = true) →
      0 ≤ s.indexOf value ∧ s.indexOf value < s.array.length ∧
      s.contentEquals value (item s.array (s.indexOf value)) = true ∧
      ∀ j : Int, 0 ≤ j → j < s.indexOf value →
        s.contentEquals value (item s.array j) = false) := by
  have hshape := searchFirst_shape tp hs value s.contentEquals
  refine ⟨hshape, ?_, ?_⟩
  · intro hnone
    rcases hshape with h | ⟨h0, hn, he, _⟩
    · exact h
    · have := hnone _ (item_mem s.array _ h0 hn)
      rw [he] at this
      cases this
  · intro hrun hex
    exact (searchFirst_least tp hs value s.contentEquals
      (fun x hx => ⟨hfine value x, hrun x hx⟩)).1 hex

/-- The statement of C6 as amended at the storage of three records of key `3` and the tags
`0`, `1`, `2`, with the equality `sameValue`, looked up for the record of tag `1`: the
hypotheses hold there and `indexOf` is `1`. -/
theorem indexOf_finer_equals_witness :
    TotalPreorder byKey ∧
    Sorted byKey [Val.record 3 0, Val.record 3 1, Val.record 3 2] ∧
    (∀ a b, sameValue a b = true → byKey a b = 0) ∧
    (ofStorage [Val.record 3 0, Val.record 3 1, Val.record 3 2] sameValue false).indexOf
      (Val.record 3 1) = 1 ∧
    ((∀ x ∈ (ofStorage [Val.record 3 0, Val.record 3 1, Val.record 3 2] sameValue false).array,
        sameValue (Val.record 3 1) x = false) →
      (ofStorage [Val.record 3 0, Val.record 3 1, Val.record 3 2] sameValue false).indexOf
        (Val.record 3 1) = -1) :=
  ⟨byKey_totalPreorder, by decide, sameValue_fine, by decide,
    (indexOf_finer_equals
      (ofStorage [Val.record 3 0, Val.record 3 1, Val.record 3 2] sameValue false)
      byKey_totalPreorder (by decide) sameValue_fine (Val.record 3 1)).2.1⟩

/-- C6 as stated fails: the storage holds three records of key `3` with the tags `0`, `1`, `2`,
sorted under `byKey`; `sameValue` holds only between values that compare equal; the record of
tag `2` is in the storage, at index `2`, yet `indexOf` returns `-1` for it. -/
theorem indexOf_finer_equals_counterexample :
    TotalPreorder byKey ∧
    Sorted byKey [Val.record 3 0, Val.record 3 1, Val.record 3 2] ∧
    (∀ a b, sameValue a b = true → byKey a b = 0) ∧
    sameValue (Val.record 3 2) (item [Val.record 3 0, Val.record 3 1, Val.record 3 2] 2) = true ∧
    (ofStorage [Val.record 3 0, Val.record 3 1, Val.record 3 2] sameValue false).indexOf
      (Val.record 3 2) = -1 :=
  ⟨byKey_totalPreorder, by decide, sameValue_fine, by decide, by decide⟩

/-- C7: on a storage sorted under a total-preorder `compare`, with `equals a b` holding exactly
when `compare a b = 0`, `lastIndexOf value` (and `findLastValue value`) is the greatest index
whose element is `equals` to `value` when there is one, and is `-1` exactly when no element is
`equals` to `value`. -/
theorem lastIndexOf_last_occurrence [HasUndefined α] (s : SortedArray α)
    (tp : TotalPreorder s.contentCompare) (hs : Sorted s.contentCompare s.array)
    (heq : ∀ a b, s.contentEquals a b = true ↔ s.contentCompare a b = 0) (value : α) :
    s.findLastValue value = s.lastIndexOf value ∧
    ((∃ x ∈ s.array, s.contentEquals value x = true) →
      0 ≤ s.lastIndexOf value ∧ s.lastIndexOf value < s.array.length ∧
      s.contentEquals value (item s.array (s.lastIndexOf value)) = true ∧
      ∀ j : Int, s.lastIndexOf value < j → j < s.array.length →
        s.contentEquals value (item s.array j) = false) ∧
    (s.lastIndexOf value = -1 ↔ ∀ x ∈ s.array, s.contentEquals value x = false) :=
  ⟨rfl, searchLast_greatest tp hs value s.contentEquals (fun x _ => heq value x)⟩

/-- The statement of C7 at the storage `[1, 3, 3, 3, 5]` and the value `3`: the hypotheses hold
there and `lastIndexOf 3` is `3`. -/
theorem lastIndexOf_last_occurrence_witness :
    TotalPreorder byKey ∧ Sorted byKey [num 1, num 3, num 3, num 3, num 5] ∧
    (∀ a b, sameKey a b = true ↔ byKey a b = 0) ∧
    (ofStorage [num 1, num 3, num 3, num 3, num 5] sameKey false).lastIndexOf (num 3) = 3 ∧
    (ofStorage [num 1, num 3, num 3, num 3, num 5] sameKey false).findLastValue (num 3) = 3 ∧
    ((ofStorage [num 1, num 3, num 3, num 3, num 5] sameKey false).lastIndexOf (num 3) = -1 ↔
      ∀ x ∈ (ofStorage [num 1, num 3, num 3, num 3, num 5] sameKey false).array,
        sameKey (num 3) x = false) :=
  ⟨byKey_totalPreorder, by decide, sameKey_iff, by decide, by decide,
    (lastIndexOf_last_occurrence (ofStorage [num 1, num 3, num 3, num 3, num 5] sameKey false)
      byKey_totalPreorder (by decide) sameKey_iff (num 3)).2.2⟩

/-! ## Termination of the binary search -/

/-- The loop of `search` ends within `last - first + 1` iterations, whatever `compare` is. -/
theorem searchLoop_terminates [HasUndefined α] (array : List α) (value : α)
    (compare : α → α → Int) :
    ∀ (fuel : Nat) (first last : Int), last - first + 1 ≤ fuel →
      ∃ r, searchLoop array value compare fuel first last = some r := by
  intro fuel
  induction fuel with
  | zero =>
    intro first last hfuel
    have hnot : ¬ first ≤ last := by omega
    exact ⟨-(first + 1), by simp [searchLoop, hnot]⟩
  | succ fuel ih =>
    intro first last hfuel
    by_cases hle : first ≤ last
    · obtain ⟨hm1, hm2⟩ := middle_bounds first last hle
      rcases lt_trichotomy (compare value (item array ((first + last) >>> (1 : Nat)))) 0
        with hc | hc | hc
      · obtain ⟨r, hr⟩ := ih first ((first + last) >>> (1 : Nat) - 1) (by omega)
        exact ⟨r, by simp [searchLoop, hle, hc, not_lt.mpr (le_of_lt hc), hr]⟩
      · exact ⟨(first + last) >>> (1 : Nat), by simp [searchLoop, hle, hc]⟩
      · obtain ⟨r, hr⟩ := ih ((first + last) >>> (1 : Nat) + 1) last (by omega)
        exact ⟨r, by simp [searchLoop, hle, hc, hr]⟩
    · exact ⟨-(first + 1), by simp [searchLoop, hle]⟩

/-! ## Insertion -/

theorem spliceCount_zero (len k : Nat) : spliceCount len k (some 0) = 0 := by
  simp only [spliceCount, Int.toNat_zero]
  split <;> omega

theorem clampIndex_of_range (len : Nat) (i : Int) (h0 : 0 ≤ i) (h : i ≤ len) :
    clampIndex len i = i.toNat := by
  unfold clampIndex
  split
  · omega
  · split
    · rfl
    · omega

theorem clampIndex_le (len : Nat) (i : Int) : clampIndex len i ≤ len := by
  unfold clampIndex
  split
  · omega
  · split <;> omega

/-- The storage after `add`: `value` is put at the position `splice` takes the insertion index
for, between the elements before that position and those from it on. -/
theorem add_array [HasUndefined α] (s : SortedArray α) (value : α) :
    (s.add value).array =
      s.array.take (clampIndex s.array.length
        (searchForInsertionIndex s.array value s.contentCompare)) ++ [value] ++
      s.array.drop (clampIndex s.array.length
        (searchForInsertionIndex s.array value s.contentCompare)) := by
  cases hd : s.dispatchesRangeChanges <;>
    simp [add, hd, arraySplice, spliceCount_zero, dispatchBeforeRangeChange, dispatchRangeChange]

theorem add_length [HasUndefined α] (s : SortedArray α) (value : α) :
    (s.add value).length = s.length + 1 := by
  cases hd : s.dispatchesRangeChanges <;>
    simp [add, hd, dispatchBeforeRangeChange, dispatchRangeChange]

theorem add_contentCompare [HasUndefined α] (s : SortedArray α) (value : α) :
    (s.add value).contentCompare = s.contentCompare := by
  cases hd : s.dispatchesRangeChanges <;>
    simp [add, hd, dispatchBeforeRangeChange, dispatchRangeChange]

theorem add_contentEquals [HasUndefined α] (s : SortedArray α) (value : α) :
    (s.add value).contentEquals = s.contentEquals := by
  cases hd : s.dispatchesRangeChanges <;>
    simp [add, hd, dispatchBeforeRangeChange, dispatchRangeChange]

theorem add_dispatchesRangeChanges [HasUndefined α] (s : SortedArray α) (value : α) :
    (s.add value).dispatchesRangeChanges = s.dispatchesRangeChanges := by
  cases hd : s.dispatchesRangeChanges <;>
    simp [add, hd, dispatchBeforeRangeChange, dispatchRangeChange]

/-- Where `searchForInsertionIndex` points on a sorted array: into `[0, array.length]`, with
`value` comparing `≥ 0` to everything before and `≤ 0` to everything from there on. -/
theorem searchForInsertionIndex_spec [HasUndefined α] {compare : α → α → Int}
    (tp : TotalPreorder compare) {array : List α} (hs : Sorted compare array) (value : α) :
    0 ≤ searchForInsertionIndex array value compare ∧
    searchForInsertionIndex array value compare ≤ array.length ∧
    (∀ j : Int, 0 ≤ j → j < searchForInsertionIndex array value compare →
      0 ≤ compare value (item array j)) ∧
    (∀ j : Int, searchForInsertionIndex array value compare ≤ j → j < array.length →
      compare value (item array j) ≤ 0) := by
  have hloc0 := search_spec tp hs value
  by_cases hneg : search array value compare < 0
  · have hr : searchForInsertionIndex array value compare = -search array value compare - 1 := by
      simp [searchForInsertionIndex, hneg]
    rw [hr]
    rcases hloc0 with ⟨h, _⟩ | ⟨_, h2, h3, h4, h5⟩
    · omega
    · exact ⟨h2, h3, fun j hj0 hj => le_of_lt (h4 j hj0 hj), fun j hj hjn => le_of_lt (h5 j hj hjn)⟩
  · rcases hloc0 with ⟨hp0, hpn, hpc⟩ | ⟨h, _⟩
    swap
    · omega
    obtain ⟨hw1, hw2, hw3, hw4⟩ := walkRight_spec array (fun x => compare value x == 0)
      ((array.length : Int) - 1 - search array value compare).toNat (search array value compare)
    have hr : searchForInsertionIndex array value compare =
        walkRight array (fun x => compare value x == 0)
          ((array.length : Int) - 1 - search array value compare).toNat
          (search array value compare) := by
      simp [searchForInsertionIndex, hneg]
    rw [hr]
    generalize walkRight array (fun x => compare value x == 0)
      ((array.length : Int) - 1 - search array value compare).toNat
      (search array value compare) = m at hw1 hw2 hw3 hw4
    have hsteps : (((array.length : Int) - 1 - search array value compare).toNat : Int) =
        (array.length : Int) - 1 - search array value compare := by
      omega
    rw [hsteps] at hw2
    have hmc : compare value (item array m) = 0 := by
      rcases lt_or_le (search array value compare) m with hlt | hge
      · simpa using hw3 m hlt (le_refl _)
      · have e : m = search array value compare := by omega
        rw [e]
        exact hpc
    refine ⟨by omega, by omega, ?_, ?_⟩
    · intro j hj0 hj
      exact hs.value_ge_left tp value j m hj0 (by omega) (by omega) (by omega)
    · intro j hj hjn
      exact hs.value_le_right tp value m j (by omega) hj hjn (by omega)

/-- Putting `value` at a position with nothing greater before it and nothing smaller after it
keeps a sorted storage sorted. -/
theorem insert_sorted [HasUndefined α] {compare : α → α → Int} (tp : TotalPreorder compare)
    {array : List α} (hs : Sorted compare array) (value : α) (k : Nat)
    (hlo : ∀ j : Int, 0 ≤ j → j < k → 0 ≤ compare value (item array j))
    (hhi : ∀ j : Int, (k : Int) ≤ j → j < array.length → compare value (item array j) ≤ 0) :
    Sorted compare (array.take k ++ [value] ++ array.drop k) := by
  apply Sorted.of_pairwise
  have hp := hs.pairwise tp
  rw [← List.take_append_drop k array] at hp
  obtain ⟨hp1, hp2, hp3⟩ := List.pairwise_append.mp hp
  have hbefore : ∀ x ∈ array.take k, compare x value ≤ 0 := by
    intro x hx
    obtain ⟨i, hi, rfl⟩ := List.mem_take_iff_getElem.mp hx
    have hi1 : i < k := lt_of_lt_of_le hi (min_le_left _ _)
    have hi2 : i < array.length := lt_of_lt_of_le hi (min_le_right _ _)
    have h := hlo i (by omega) (by omega)
    rw [item_natCast array i hi2] at h
    have := tp.pos_iff array[i] value
    omega
  have hafter : ∀ x ∈ array.drop k, compare value x ≤ 0 := by
    intro x hx
    obtain ⟨i, hi, rfl⟩ := List.mem_drop_iff_getElem.mp hx
    have hi2 : k + i < array.length := by omega
    have h := hhi ((k + i : Nat) : Int) (by omega) (by omega)
    rw [item_natCast array (k + i) hi2] at h
    exact h
  rw [List.append_assoc]
  refine List.pairwise_append.mpr ⟨hp1, ?_, ?_⟩
  · exact List.pairwise_append.mpr ⟨List.pairwise_singleton _ _, hp2, by
      intro a ha b hb
      rw [List.mem_singleton.mp ha]
      exact hafter b hb⟩
  · intro a ha b hb
    rcases List.mem_append.mp hb with hb | hb
    · rw [List.mem_singleton.mp hb]
      exact hbefore a ha
    · exact hp3 a ha b hb

theorem add_sorted [HasUndefined α] (s : SortedArray α) (tp : TotalPreorder s.contentCompare)
    (hs : Sorted s.contentCompare s.array) (value : α) :
    Sorted s.contentCompare (s.add value).array := by
  obtain ⟨h0, hn, hlo, hhi⟩ := searchForInsertionIndex_spec tp hs value
  rw [add_array, clampIndex_of_range _ _ h0 hn]
  apply insert_sorted tp hs value
  · intro j hj0 hj
    exact hlo j hj0 (by omega)
  · intro j hj hjn
    exact hhi j (by omega) hjn

theorem add_perm [HasUndefined α] (s : SortedArray α) (value : α) :
    (s.add value).array.Perm (value :: s.array) := by
  rw [add_array, List.append_assoc, List.singleton_append]
  refine List.perm_middle.trans ?_
  rw [List.take_append_drop]

/-! ## Bulk insertion -/

theorem addEach_nil [HasUndefined α] (s : SortedArray α) : s.addEach [] = s := rfl

theorem addEach_cons [HasUndefined α] (s : SortedArray α) (value : α) (values : List α) :
    s.addEach (value :: values) = (s.add value).addEach values := rfl

theorem addEach_contentCompare [HasUndefined α] (values : List α) :
    ∀ s : SortedArray α, (s.addEach values).contentCompare = s.contentCompare := by
  induction values with
  | nil => intro s; rfl
  | cons value values ih =>
    intro s
    rw [addEach_cons, ih, add_contentCompare]

theorem addEach_sorted [HasUndefined α] (values : List α) :
    ∀ s : SortedArray α, TotalPreorder s.contentCompare → Sorted s.contentCompare s.array →
      Sorted s.contentCompare (s.addEach values).array := by
  induction values with
  | nil => intro s _ hs; exact hs
  | cons value values ih =>
    intro s tp hs
    rw [addEach_cons]
    have h := ih (s.add value) (by rw [add_contentCompare]; exact tp)
      (by rw [add_contentCompare]; exact add_sorted s tp hs value)
    rw [add_contentCompare] at h
    exact h

theorem addEach_perm [HasUndefined α] (values : List α) :
    ∀ s : SortedArray α, (s.addEach values).array.Perm (s.array ++ values) := by
  induction values with
  | nil => intro s; simp [addEach_nil]
  | cons value values ih =>
    intro s
    rw [addEach_cons]
    refine (ih (s.add value)).trans ?_
    refine ((add_perm s value).append_right values).trans ?_
    exact List.perm_middle.symm

theorem addEach_length [HasUndefined α] (values : List α) :
    ∀ s : SortedArray α, (s.addEach values).length = s.length + values.length := by
  induction values with
  | nil => intro s; simp [addEach_nil]
  | cons value values ih =>
    intro s
    rw [addEach_cons, ih, add_length]
    simp only [List.length_cons]
    push_cast
    omega

/-- C9: for every list of values and every total-preorder `compare`, the container the
constructor builds from the list (by adding the values one at a time) has a storage that is
sorted under `compare` and a permutation of the list, and a `length` equal to the number of
values; `push` and `unshift` of the list on the empty container build the same container. -/
theorem construction_sorts_input [HasUndefined α] (values : List α) (equals : α → α → Bool)
    (compare : α → α → Int) (getDefault : α → α) (tp : TotalPreorder compare) :
    Sorted compare (SortedArray.new values equals compare getDefault).array ∧
    (SortedArray.new values equals compare getDefault).array.Perm values ∧
    (SortedArray.new values equals compare getDefault).length = values.length ∧
    (SortedArray.new [] equals compare getDefault).push values =
      SortedArray.new values equals compare getDefault ∧
    (SortedArray.new [] equals compare getDefault).unshift values =
      SortedArray.new values equals compare getDefault := by
  refine ⟨?_, ?_, ?_, rfl, rfl⟩
  · exact addEach_sorted values
      { array := [], contentEquals := equals, contentCompare := compare,
        getDefault := getDefault, length := 0, dispatchesRangeChanges := false,
        dispatched := [] } tp trivial
  · simpa [SortedArray.new] using addEach_perm values
      { array := [], contentEquals := equals, contentCompare := compare,
        getDefault := getDefault, length := 0, dispatchesRangeChanges := false,
        dispatched := [] }
  · simpa [SortedArray.new] using addEach_length values
      { array := [], contentEquals := equals, contentCompare := compare,
        getDefault := getDefault, length := 0, dispatchesRangeChanges := false,
        dispatched := [] }

/-- The statement of C9 at the values `5, 3, 5` under `byKey`: the hypothesis holds, and
`add 5`, `add 3`, `add 5` on the empty container give the storage `[3, 5, 5]` and the
length `3`. -/
theorem construction_sorts_input_witness :
    TotalPreorder byKey ∧
    ((((SortedArray.new [] sameKey byKey (fun _ => Val.undefined)).add (num 5)).add
      (num 3)).add (num 5)).array = [num 3, num 5, num 5] ∧
    ((((SortedArray.new [] sameKey byKey (fun _ => Val.undefined)).add (num 5)).add
      (num 3)).add (num 5)).length = 3 ∧
    Sorted byKey
      (SortedArray.new [num 5, num 3, num 5] sameKey byKey (fun _ => Val.undefined)).array ∧
    (SortedArray.new [num 5, num 3, num 5] sameKey byKey (fun _ => Val.undefined)).array.Perm
      [num 5, num 3, num 5] ∧
    (SortedArray.new [num 5, num 3, num 5] sameKey byKey (fun _ => Val.undefined)).length =
      ([num 5, num 3, num 5] : List Val).length :=
  ⟨byKey_totalPreorder, by decide, by decide,
    (construction_sorts_input [num 5, num 3, num 5] sameKey byKey (fun _ => Val.undefined)
      byKey_totalPreorder).1,
    (construction_sorts_input [num 5, num 3, num 5] sameKey byKey (fun _ => Val.undefined)
      byKey_totalPreorder).2.1,
    (construction_sorts_input [num 5, num 3, num 5] sameKey byKey (fun _ => Val.undefined)
      byKey_totalPreorder).2.2.1⟩

/-! ## Removal -/

/-- What `splice` leaves when it inserts nothing is a sublist of the array. -/
theorem arraySplice_nil_sublist (array : List α) (start : Int) (deleteCount : Option Int) :
    (arraySplice array start deleteCount []).2.Sublist array := by
  simp only [arraySplice, List.append_nil]
  have h := ((List.Sublist.refl (array.take (clampIndex array.length start))).append
    (List.drop_sublist_drop_left array
      (Nat.le_add_right (clampIndex array.length start)
        (spliceCount array.length (clampIndex array.length start) deleteCount))))
  rw [List.take_append_drop] at h
  exact h

theorem delete_frame [HasUndefined α] (s : SortedArray α) (value : α) :
    (s.delete value).2.contentCompare = s.contentCompare ∧
    (s.delete value).2.array.Sublist s.array := by
  by_cases h : searchFirst s.array value s.contentCompare s.contentEquals = -1
  · simp [delete, h]
  · cases hd : s.dispatchesRangeChanges <;>
      simp [delete, h, hd, dispatchBeforeRangeChange, dispatchRangeChange, spliceOne,
        List.eraseIdx_sublist]

theorem deleteAll_frame [HasUndefined α] (fuel : Nat) (s : SortedArray α) (value : α)
    (equals : Option (α → α → Bool)) (r : Int × SortedArray α)
    (h : s.deleteAll fuel value equals = some r) :
    r.2.contentCompare = s.contentCompare ∧ r.2.array.Sublist s.array := by
  cases equals with
  | some equals =>
    simp only [deleteAll, Option.some.injEq] at h
    subst h
    exact ⟨rfl, List.filter_sublist _⟩
  | none =>
    by_cases hstart : searchFirst s.array value s.contentCompare s.contentEquals = -1
    · simp only [deleteAll, hstart, ne_eq, not_true_eq_false, if_false,
        Option.some.injEq] at h
      subst h
      exact ⟨rfl, List.Sublist.refl _⟩
    · simp only [deleteAll, hstart, ne_eq, not_false_eq_true, if_true] at h
      cases hscan : scanRun s.array value s.contentEquals fuel
          (searchFirst s.array value s.contentCompare s.contentEquals) with
      | none => simp [hscan] at h
      | some stop =>
        simp only [hscan, Option.some.injEq] at h
        subst h
        cases hd : s.dispatchesRangeChanges <;>
          simp [hd, dispatchBeforeRangeChange, dispatchRangeChange, arraySplice_nil_sublist]

theorem swap_frame [HasUndefined α] (s : SortedArray α) (index length : Option Int)
    (plus : List α) :
    (s.swap index length plus).2 = s ∨
    ∃ t : SortedArray α, (s.swap index length plus).2 = t.addEach plus ∧
      t.contentCompare = s.contentCompare ∧ t.array.Sublist s.array := by
  by_cases h : index = none ∧ length = none
  · exact Or.inl (by simp [swap, h])
  · refine Or.inr ?_
    unfold swap
    rw [if_neg h]
    refine ⟨_, rfl, ?_, ?_⟩
    · cases hd : s.dispatchesRangeChanges <;>
        simp [hd, dispatchBeforeRangeChange, dispatchRangeChange]
    · cases hd : s.dispatchesRangeChanges <;>
        simp [hd, dispatchBeforeRangeChange, dispatchRangeChange, arraySplice_nil_sublist]

/-! ## The sortedness invariant -/

theorem run_preserves [HasUndefined α] (fuel : Nat) (s t : SortedArray α) (op : Op α)
    (tp : TotalPreorder s.contentCompare) (hs : Sorted s.contentCompare s.array)
    (h : op.run fuel s = some t) :
    t.contentCompare = s.contentCompare ∧ Sorted s.contentCompare t.array := by
  cases op with
  | add value =>
    simp only [Op.run, Option.some.injEq] at h
    subst h
    exact ⟨add_contentCompare s value, add_sorted s tp hs value⟩
  | delete value =>
    simp only [Op.run, Option.some.injEq] at h
    subst h
    exact ⟨(delete_frame s value).1, Sorted.sublist tp (delete_frame s value).2 hs⟩
  | deleteAll value equals =>
    simp only [Op.run, Option.map_eq_some'] at h
    obtain ⟨r, hr, rfl⟩ := h
    obtain ⟨h1, h2⟩ := deleteAll_frame fuel s value equals r hr
    exact ⟨h1, Sorted.sublist tp h2 hs⟩
  | push values =>
    simp only [Op.run, Option.some.injEq] at h
    subst h
    exact ⟨addEach_contentCompare values s, addEach_sorted values s tp hs⟩
  | unshift values =>
    simp only [Op.run, Option.some.injEq] at h
    subst h
    exact ⟨addEach_contentCompare values s, addEach_sorted values s tp hs⟩
  | pop =>
    simp only [Op.run, Option.some.injEq] at h
    subst h
    exact ⟨rfl, Sorted.sublist tp (List.dropLast_sublist s.array) hs⟩
  | shift =>
    simp only [Op.run, Option.some.injEq] at h
    subst h
    exact ⟨rfl, Sorted.sublist tp (List.tail_sublist s.array) hs⟩
  | swap index length plus =>
    simp only [Op.run, Option.some.injEq] at h
    subst h
    rcases swap_frame s index length plus with h | ⟨u, h1, h2, h3⟩
    · rw [h]
      exact ⟨rfl, hs⟩
    · rw [h1, addEach_contentCompare, h2]
      refine ⟨rfl, ?_⟩
      have := addEach_sorted plus u (by rw [h2]; exact tp)
        (by rw [h2]; exact Sorted.sublist tp h3 hs)
      rw [h2] at this
      exact this
  | splice index length plus =>
    simp only [Op.run, splice, Option.some.injEq] at h
    subst h
    rcases swap_frame s index length plus with h | ⟨u, h1, h2, h3⟩
    · rw [h]
      exact ⟨rfl, hs⟩
    · rw [h1, addEach_contentCompare, h2]
      refine ⟨rfl, ?_⟩
      have := addEach_sorted plus u (by rw [h2]; exact tp)
        (by rw [h2]; exact Sorted.sublist tp h3 hs)
      rw [h2] at this
      exact this
  | clear =>
    simp only [Op.run, Option.some.injEq] at h
    subst h
    cases hd : s.dispatchesRangeChanges <;>
      simp [clear, hd, dispatchBeforeRangeChange, dispatchRangeChange, Sorted]

/-- Every call other than `deleteAll` without an equality override returns. -/
theorem run_returns [HasUndefined α] (fuel : Nat) (s : SortedArray α) (op : Op α)
    (h : ∀ value, op ≠ Op.deleteAll value none) : ∃ t, op.run fuel s = some t := by
  cases op with
  | deleteAll value equals =>
    cases equals with
    | none => exact absurd rfl (h value)
    | some equals => exact ⟨_, rfl⟩
  | _ => exact ⟨_, rfl⟩

/-- C2: when `compare` is a total preorder and the storage is sorted, the storage is sorted
again after any finite sequence of the calls `add`, `delete`, `deleteAll`, `push`, `unshift`,
`pop`, `shift`, `swap`, `splice` and `clear` (a single call is a sequence of one, and the
empty container the constructor starts from is sorted); and a sequence without a `deleteAll`
that has no equality override always returns. -/
theorem sortedness_invariant [HasUndefined α] (fuel : Nat) (ops : List (Op α)) :
    ∀ s : SortedArray α, TotalPreorder s.contentCompare → Sorted s.contentCompare s.array →
      (∀ t, runAll fuel s ops = some t → Sorted s.contentCompare t.array) ∧
      ((∀ op ∈ ops, ∀ value, op ≠ Op.deleteAll value none) →
        ∃ t, runAll fuel s ops = some t) := by
  induction ops with
  | nil =>
    intro s _ hs
    exact ⟨fun t ht => by
      simp only [runAll, Option.some.injEq] at ht
      subst ht
      exact hs, fun _ => ⟨s, rfl⟩⟩
  | cons op ops ih =>
    intro s tp hs
    constructor
    · intro t ht
      simp only [runAll, Option.bind_eq_some] at ht
      obtain ⟨u, hu, hrest⟩ := ht
      obtain ⟨h1, h2⟩ := run_preserves fuel s u op tp hs hu
      have := (ih u (by rw [h1]; exact tp) (by rw [h1]; exact h2)).1 t hrest
      rw [h1] at this
      exact this
    · intro hall
      obtain ⟨u, hu⟩ := run_returns fuel s op (hall op (List.mem_cons_self op ops))
      obtain ⟨h1, h2⟩ := run_preserves fuel s u op tp hs hu
      obtain ⟨t, ht⟩ := (ih u (by rw [h1]; exact tp) (by rw [h1]; exact h2)).2
        (fun o ho => hall o (List.mem_cons_of_mem op ho))
      exact ⟨t, by simp [runAll, hu, ht]⟩

/-- The statement of C2 at the empty container under `byKey` and the calls `add 5`, `add 3`,
`add 5`, `deleteAll 5`, `swap 0 1 [7, 2]`, `pop`: the hypotheses hold, the sequence returns
(with the storage `[2]`), and the storage it returns is sorted. -/
theorem sortedness_invariant_witness :
    TotalPreorder byKey ∧ Sorted byKey (ofStorage [] sameKey false).array ∧
    (runAll 2 (ofStorage [] sameKey false)
      [Op.add (num 5), Op.add (num 3), Op.add (num 5), Op.deleteAll (num 5) none,
        Op.swap (some 0) (some 1) [num 7, num 2], Op.pop]).map (fun t => t.array) =
      some [num 2] ∧
    (∀ t, runAll 2 (ofStorage [] sameKey false)
      [Op.add (num 5), Op.add (num 3), Op.add (num 5), Op.deleteAll (num 5) none,
        Op.swap (some 0) (some 1) [num 7, num 2], Op.pop] = some t →
      Sorted byKey t.array) :=
  ⟨byKey_totalPreorder, by decide, by decide,
    (sortedness_invariant 2
      [Op.add (num 5), Op.add (num 3), Op.add (num 5), Op.deleteAll (num 5) none,
        Op.swap (some 0) (some 1) [num 7, num 2], Op.pop]
      (ofStorage [] sameKey false) byKey_totalPreorder (by decide)).1⟩

/-! ## Deleting one element -/

theorem delete_found [HasUndefined α] (s : SortedArray α) (value : α)
    (h : searchFirst s.array value s.contentCompare s.contentEquals ≠ -1) :
    (s.delete value).1 = true ∧
    (s.delete value).2.array =
      spliceOne s.array (searchFirst s.array value s.contentCompare s.contentEquals) ∧
    (s.delete value).2.length = s.length - 1 := by
  cases hd : s.dispatchesRangeChanges <;>
    simp [delete, h, hd, dispatchBeforeRangeChange, dispatchRangeChange]

theorem delete_not_found [HasUndefined α] (s : SortedArray α) (value : α)
    (h : searchFirst s.array value s.contentCompare s.contentEquals = -1) :
    s.delete value = (false, s) := by
  simp [delete, h]

theorem item_insert_at [HasUndefined α] (array : List α) (value : α) (k : Nat)
    (hk : k ≤ array.length) :
    item (array.take k ++ [value] ++ array.drop k) (k : Int) = value := by
  have hlen : (array.take k).length = k := by
    rw [List.length_take]
    exact min_eq_left hk
  unfold item
  rw [if_neg (by omega), Int.toNat_ofNat, List.append_assoc,
    List.getD_append_right _ _ _ _ (by omega), hlen]
  simp

theorem item_insert_before [HasUndefined α] (array : List α) (value : α) (k : Nat)
    (hk : k ≤ array.length) (j : Int) (hj0 : 0 ≤ j) (hj : j < k) :
    item (array.take k ++ [value] ++ array.drop k) j = item array j := by
  have hlen : (array.take k).length = k := by
    rw [List.length_take]
    exact min_eq_left hk
  obtain ⟨i, rfl⟩ := Int.eq_ofNat_of_zero_le hj0
  have hi : i < k := by omega
  unfold item
  rw [if_neg (by omega), if_neg (by omega), Int.toNat_ofNat, List.append_assoc,
    List.getD_append _ _ _ _ (by omega)]
  rw [List.getD_eq_getElem _ _ (by omega), List.getD_eq_getElem _ _ (by omega),
    List.getElem_take]

theorem eraseIdx_insert (array : List α) (value : α) (k : Nat) (hk : k ≤ array.length) :
    (array.take k ++ [value] ++ array.drop k).eraseIdx k = array := by
  have hlen : (array.take k).length = k := by
    rw [List.length_take]
    exact min_eq_left hk
  rw [List.append_assoc, List.eraseIdx_append_of_length_le (by omega), hlen]
  simp

/-- C10, as amended: on a storage sorted under a total-preorder `compare`, with a reflexive
`equals` that holds only between values that compare equal, and a `value` that no element of
the storage compares equal to, `add value` followed by `delete value` returns `true` from
`delete` and leaves the storage and the `length` as they were before `add`. -/
theorem add_delete_round_trip [HasUndefined α] (s : SortedArray α)
    (tp : TotalPreorder s.contentCompare) (hs : Sorted s.contentCompare s.array)
    (hrefl : ∀ a, s.contentEquals a a = true)
    (hfine : ∀ a b, s.contentEquals a b = true → s.contentCompare a b = 0)
    (value : α) (hnew : ∀ x ∈ s.array, s.contentCompare value x ≠ 0) :
    ((s.add value).delete value).1 = true ∧
    ((s.add value).delete value).2.array = s.array ∧
    ((s.add value).delete value).2.length = s.length := by
  obtain ⟨h0, hn, -, -⟩ := searchForInsertionIndex_spec tp hs value
  obtain ⟨k, hk⟩ := Int.eq_ofNat_of_zero_le h0
  have hkn : k ≤ s.array.length := by omega
  have harr : (s.add value).array = s.array.take k ++ [value] ++ s.array.drop k := by
    rw [add_array, clampIndex_of_range _ _ h0 hn, hk, Int.toNat_ofNat]
  have hsorted : Sorted s.contentCompare (s.add value).array := add_sorted s tp hs value
  have hmem : ∀ x ∈ (s.add value).array, x = value ∨ x ∈ s.array := by
    intro x hx
    rw [harr] at hx
    rcases List.mem_append.mp hx with hx | hx
    · rcases List.mem_append.mp hx with hx | hx
      · exact Or.inr (List.mem_of_mem_take hx)
      · exact Or.inl (List.mem_singleton.mp hx)
    · exact Or.inr (List.mem_of_mem_drop hx)
  have hloc : ∀ x ∈ (s.add value).array,
      s.contentEquals value x = true ↔ s.contentCompare value x = 0 := by
    intro x hx
    rcases hmem x hx with rfl | hx
    · exact ⟨fun _ => tp.refl x, fun _ => hrefl x⟩
    · exact ⟨hfine value x, fun h => absurd h (hnew x hx)⟩
  have hin : value ∈ (s.add value).array := by
    rw [harr]
    simp
  obtain ⟨hr0, hrn, hre, hrmin⟩ :=
    (searchFirst_least tp hsorted value s.contentEquals hloc).1 ⟨value, hin, hrefl value⟩
  have hidx : searchFirst (s.add value).array value s.contentCompare s.contentEquals = k := by
    rcases lt_trichotomy (searchFirst (s.add value).array value s.contentCompare
      s.contentEquals) (k : Int) with hlt | heq | hgt
    · exfalso
      have e := item_insert_before s.array value k hkn _ hr0 hlt
      rw [← harr] at e
      rw [e] at hre
      have hx := item_mem s.array _ hr0 (by omega)
      exact hnew _ hx (hfine _ _ hre)
    · exact heq
    · exfalso
      have h := hrmin k (by omega) hgt
      rw [harr, item_insert_at s.array value k hkn, hrefl value] at h
      cases h
  have hfound : searchFirst (s.add value).array value (s.add value).contentCompare
      (s.add value).contentEquals ≠ -1 := by
    rw [add_contentCompare, add_contentEquals, hidx]
    omega
  obtain ⟨d1, d2, d3⟩ := delete_found (s.add value) value hfound
  refine ⟨d1, ?_, ?_⟩
  · rw [d2, add_contentCompare, add_contentEquals, hidx, harr]
    simp only [spliceOne, Int.toNat_ofNat]
    exact eraseIdx_insert s.array value k hkn
  · rw [d3, add_length]
    omega

/-- The statement of C10 as amended at the storage `[1, 3]` under `byKey` and `sameKey`, for
the value `2`: the hypotheses hold there, and `add 2` then `delete 2` gives back `[1, 3]`. -/
theorem add_delete_round_trip_witness :
    TotalPreorder byKey ∧ Sorted byKey [num 1, num 3] ∧
    (∀ a, sameKey a a = true) ∧ (∀ a b, sameKey a b = true → byKey a b = 0) ∧
    (∀ x ∈ [num 1, num 3], byKey (num 2) x ≠ 0) ∧
    (((ofStorage [num 1, num 3] sameKey false).add (num 2)).delete (num 2)).1 = true ∧
    (((ofStorage [num 1, num 3] sameKey false).add (num 2)).delete (num 2)).2.array =
      [num 1, num 3] ∧
    (((ofStorage [num 1, num 3] sameKey false).add (num 2)).delete (num 2)).2.length = 2 :=
  ⟨byKey_totalPreorder, by decide, fun a => (sameKey_iff a a).mpr (byKey_totalPreorder.refl a),
    fun a b => (sameKey_iff a b).mp, by decide,
    add_delete_round_trip (ofStorage [num 1, num 3] sameKey false) byKey_totalPreorder
      (by decide) (fun a => (sameKey_iff a a).mpr (byKey_totalPreorder.refl a))
      (fun a b => (sameKey_iff a b).mp) (num 2) (by decide)⟩

/-- C10 as stated fails: `anyValue` is a reflexive equality, the storage `[1]` is sorted under
`byKey` and `2` compares equal to none of its elements; yet `add 2` followed by `delete 2`
leaves the storage `[2]`, not `[1]`: the walk of `searchFirst` steps left onto `1`, which
`anyValue` takes for `2`, and `delete` removes it. -/
theorem add_delete_round_trip_counterexample :
    TotalPreorder byKey ∧ Sorted byKey [num 1] ∧ (∀ a, anyValue a a = true) ∧
    (∀ x ∈ [num 1], byKey (num 2) x ≠ 0) ∧
    (((ofStorage [num 1] anyValue false).add (num 2)).delete (num 2)).1 = true ∧
    (((ofStorage [num 1] anyValue false).add (num 2)).delete (num 2)).2.array = [num 2] ∧
    (((ofStorage [num 1] anyValue false).add (num 2)).delete (num 2)).2.array ≠
      (ofStorage [num 1] anyValue false).array :=
  ⟨byKey_totalPreorder, by decide, fun _ => rfl, by decide, by decide, by decide, by decide⟩

/-! ## Evaluations at failing inputs -/

/-- C1 at a failing input: the storage holds the record of key `3` and tag `0`, and the record
of key `3` and tag `1`, which compares equal to it, is added.  `searchForInsertionIndex`
returns `0`, the index of the last element of the compare-equal run and not one past it, and
`add` puts the new record at index `0`, before the record that was there.  In
`[1, 3, 3, 3, 5]` it returns `3`, not `4`. -/
theorem add_before_last_equal :
    TotalPreorder byKey ∧ Sorted byKey [Val.record 3 0] ∧
    byKey (Val.record 3 1) (Val.record 3 0) = 0 ∧
    searchForInsertionIndex [Val.record 3 0] (Val.record 3 1) byKey = 0 ∧
    ((ofStorage [Val.record 3 0] sameValue false).add (Val.record 3 1)).array =
      [Val.record 3 1, Val.record 3 0] ∧
    searchForInsertionIndex [num 1, num 3, num 3, num 3, num 5] (Val.record 3 1) byKey = 3 ∧
    ((ofStorage [num 1, num 3, num 3, num 3, num 5] sameValue false).add (Val.record 3 1)).array =
      [num 1, num 3, num 3, Val.record 3 1, num 3, num 5] :=
  ⟨byKey_totalPreorder, by decide, by decide, by decide, by decide, by decide, by decide⟩

/-- C3 at a failing input: on the storage `[10, 20, 30]` with `length = 3`, the call
`swap(-4, 1, [])` computes `minus = slice(-1, 0) = []` but `splice(-1, 1)` removes the last
element: the storage is `[10, 20]` and `length` is still `3`. -/
theorem swap_breaks_length :
    (ofStorage [num 10, num 20, num 30] sameKey false).length =
      (ofStorage [num 10, num 20, num 30] sameKey false).array.length ∧
    ((ofStorage [num 10, num 20, num 30] sameKey false).swap (some (-4)) (some 1) []).1 = [] ∧
    ((ofStorage [num 10, num 20, num 30] sameKey false).swap (some (-4)) (some 1) []).2.array =
      [num 10, num 20] ∧
    ((ofStorage [num 10, num 20, num 30] sameKey false).swap (some (-4)) (some 1) []).2.length =
      3 :=
  ⟨by decide, by decide, by decide, by decide⟩

theorem item_singleton_undefined (i : Int) : item [Val.undefined] i = Val.undefined := by
  unfold item
  split
  · rfl
  · cases h : i.toNat with
    | zero => rfl
    | succ k => rfl

theorem scanRun_undefined (fuel : Nat) :
    ∀ stop : Int, scanRun [Val.undefined] Val.undefined sameKey fuel stop = none := by
  induction fuel with
  | zero =>
    intro stop
    simp [scanRun, item_singleton_undefined, sameKey, byKey]
  | succ fuel ih =>
    intro stop
    simp [scanRun, item_singleton_undefined, sameKey, byKey, ih]

/-- C8 at a failing input: the storage `[undefined]` is sorted under the total preorder
`byKey`, and `sameKey` holds exactly when `byKey` returns `0`; `deleteAll(undefined)` finds
the run at index `0` and its scanning loop then reads `array[1]`, `array[2]`, ..., each of
them `undefined` and `sameKey` to the value: the loop is still running after any number of
iterations, so the call returns no count. -/
theorem deleteAll_undefined_diverges :
    TotalPreorder byKey ∧ Sorted byKey [Val.undefined] ∧
    (∀ a b, sameKey a b = true ↔ byKey a b = 0) ∧
    ∀ fuel : Nat, (ofStorage [Val.undefined] sameKey false).deleteAll fuel Val.undefined none =
      none := by
  refine ⟨byKey_totalPreorder, by decide, sameKey_iff, ?_⟩
  intro fuel
  have hstart : searchFirst [Val.undefined] Val.undefined byKey sameKey = 0 := by decide
  simp [deleteAll, ofStorage, hstart, scanRun_undefined]

/-! ## The insertion index inside a compare-equal run -/

theorem item_insert_after [HasUndefined α] (array : List α) (value : α) (k : Nat)
    (hk : k ≤ array.length) (j : Int) (hj : (k : Int) ≤ j) :
    item (array.take k ++ [value] ++ array.drop k) (j + 1) = item array j := by
  have hlen : (array.take k).length = k := by
    rw [List.length_take]
    exact min_eq_left hk
  obtain ⟨i, rfl⟩ := Int.eq_ofNat_of_zero_le (le_trans (Int.ofNat_zero_le k) hj)
  have hi : k ≤ i := by omega
  have e1 : ((i : Int) + 1).toNat = i + 1 := by omega
  have e2 : i + 1 - k = (i - k) + 1 := by omega
  unfold item
  rw [if_neg (by omega), if_neg (by omega), e1, Int.toNat_ofNat, List.append_assoc,
    List.getD_append_right _ _ _ _ (by omega), hlen, e2]
  simp only [List.singleton_append, List.getD_cons_succ]
  rcases Nat.lt_or_ge i array.length with hlt | hge
  · rw [List.getD_eq_getElem _ _ (by rw [List.length_drop]; omega),
      List.getD_eq_getElem _ _ hlt, List.getElem_drop]
    congr 1
    omega
  · rw [List.getD_eq_default _ _ (by rw [List.length_drop]; omega),
      List.getD_eq_default _ _ hge]

/-- What `searchForInsertionIndex` returns when some element compares equal to `value`, on a
storage sorted under a total preorder: the index of the last such element (every later element
compares greater), and `add` puts `value` at that index, so that the element that was there
follows it. -/
theorem searchForInsertionIndex_last_of_run [HasUndefined α] (s : SortedArray α)
    (tp : TotalPreorder s.contentCompare) (hs : Sorted s.contentCompare s.array) (value : α)
    (hex : ∃ x ∈ s.array, s.contentCompare value x = 0) :
    0 ≤ searchForInsertionIndex s.array value s.contentCompare ∧
    searchForInsertionIndex s.array value s.contentCompare < s.array.length ∧
    s.contentCompare value
      (item s.array (searchForInsertionIndex s.array value s.contentCompare)) = 0 ∧
    (∀ j : Int, searchForInsertionIndex s.array value s.contentCompare < j →
      j < s.array.length → s.contentCompare value (item s.array j) < 0) ∧
    item (s.add value).array (searchForInsertionIndex s.array value s.contentCompare) = value ∧
    item (s.add value).array (searchForInsertionIndex s.array value s.contentCompare + 1) =
      item s.array (searchForInsertionIndex s.array value s.contentCompare) := by
  have hloc0 := search_spec tp hs value
  have hno := hloc0.no_equal_of_neg
  have hnn : ¬ search s.array value s.contentCompare < 0 := by
    intro hneg
    obtain ⟨x, hx, hx0⟩ := hex
    exact hno hneg x hx hx0
  rcases hloc0 with ⟨hp0, hpn, hpc⟩ | ⟨h, _⟩
  swap
  · omega
  obtain ⟨hw1, hw2, hw3, hw4⟩ := walkRight_spec s.array (fun x => s.contentCompare value x == 0)
    ((s.array.length : Int) - 1 - search s.array value s.contentCompare).toNat
    (search s.array value s.contentCompare)
  have hr : searchForInsertionIndex s.array value s.contentCompare =
      walkRight s.array (fun x => s.contentCompare value x == 0)
        ((s.array.length : Int) - 1 - search s.array value s.contentCompare).toNat
        (search s.array value s.contentCompare) := by
    simp [searchForInsertionIndex, hnn]
  have harr := add_array s value
  rw [hr] at harr ⊢
  generalize walkRight s.array (fun x => s.contentCompare value x == 0)
    ((s.array.length : Int) - 1 - search s.array value s.contentCompare).toNat
    (search s.array value s.contentCompare) = m at hw1 hw2 hw3 hw4 harr
  have hsteps : (((s.array.length : Int) - 1 - search s.array value s.contentCompare).toNat : Int)
      = (s.array.length : Int) - 1 - search s.array value s.contentCompare := by
    omega
  rw [hsteps] at hw2 hw4
  have hmc : s.contentCompare value (item s.array m) = 0 := by
    rcases lt_or_le (search s.array value s.contentCompare) m with hlt | hge
    · simpa using hw3 m hlt (le_refl _)
    · have e : m = search s.array value s.contentCompare := by omega
      rw [e]
      exact hpc
  have hm0 : 0 ≤ m := by omega
  obtain ⟨k, hk⟩ := Int.eq_ofNat_of_zero_le hm0
  have hkn : k ≤ s.array.length := by omega
  rw [clampIndex_of_range _ _ hm0 (by omega), hk, Int.toNat_ofNat] at harr
  refine ⟨hm0, by omega, hmc, ?_, ?_, ?_⟩
  · intro j hj hjn
    rcases hw4 with h | h
    · omega
    · have hne : s.contentCompare value (item s.array (m + 1)) ≠ 0 := by simpa using h
      have h1 := hs.value_le_right tp value m (m + 1) hm0 (by omega) (by omega) (by omega)
      by_contra hcon
      have h2 := hs.value_ge_left tp value (m + 1) j (by omega) (by omega) hjn (by omega)
      omega
  · rw [harr, hk]
    exact item_insert_at s.array value k hkn
  · rw [harr, hk]
    exact item_insert_after s.array value k hkn k (le_refl _)

/-- The statement above at the storage `[1, 3, 3, 3, 5]` and a fourth value of key `3`: the
index returned is `3`, the index of the last `3`. -/
theorem searchForInsertionIndex_last_of_run_witness :
    TotalPreorder byKey ∧ Sorted byKey [num 1, num 3, num 3, num 3, num 5] ∧
    (∃ x ∈ [num 1, num 3, num 3, num 3, num 5], byKey (Val.record 3 1) x = 0) ∧
    searchForInsertionIndex [num 1, num 3, num 3, num 3, num 5] (Val.record 3 1) byKey = 3 ∧
    byKey (Val.record 3 1) (item [num 1, num 3, num 3, num 3, num 5]
      (searchForInsertionIndex [num 1, num 3, num 3, num 3, num 5] (Val.record 3 1) byKey)) = 0 :=
  ⟨byKey_totalPreorder, by decide, by decide, by decide,
    (searchForInsertionIndex_last_of_run (ofStorage [num 1, num 3, num 3, num 3, num 5]
      sameKey false) byKey_totalPreorder (by decide) (Val.record 3 1) (by decide)).2.2.1⟩

/-! ## Removing a run -/

theorem item_out_of_range [HasUndefined α] (array : List α) (i : Int)
    (h : (array.length : Int) ≤ i) : item array i = undefined := by
  unfold item
  split
  · rfl
  · exact List.getD_eq_default _ _ (by omega)

/-- The scanning loop of `deleteAll` ends within `array.length - stop` iterations when
`equals` does not take `undefined` for `value`; it stops at the first index from `stop` on
whose element is not `equals` to `value`. -/
theorem scanRun_spec [HasUndefined α] (array : List α) (value : α) (equals : α → α → Bool)
    (hund : equals value undefined = false) :
    ∀ (fuel : Nat) (stop : Int), 0 ≤ stop → (array.length : Int) - stop ≤ fuel →
      ∃ e, scanRun array value equals fuel stop = some e ∧ stop ≤ e ∧
        (e ≤ array.length ∨ e = stop) ∧
        (∀ j : Int, stop ≤ j → j < e → equals value (item array j) = true) ∧
        equals value (item array e) = false := by
  intro fuel
  induction fuel with
  | zero =>
    intro stop h0 hfuel
    have hout : equals value (item array stop) = false := by
      rw [item_out_of_range array stop (by omega)]
      exact hund
    exact ⟨stop, by simp [scanRun, hout], le_refl _, Or.inr rfl, fun j h1 h2 => by omega, hout⟩
  | succ fuel ih =>
    intro stop h0 hfuel
    cases hc : equals value (item array stop)
    · exact ⟨stop, by simp [scanRun, hc], le_refl _, Or.inr rfl, fun j h1 h2 => by omega, hc⟩
    · have hin : stop < array.length := by
        by_contra hcon
        rw [item_out_of_range array stop (by omega), hund] at hc
        cases hc
      obtain ⟨e, he, h1, h2, h3, h4⟩ := ih (stop + 1) (by omega) (by push_cast at hfuel; omega)
      refine ⟨e, by simp [scanRun, hc, he], by omega, Or.inl (by omega), ?_, h4⟩
      intro j hj1 hj2
      rcases lt_or_le stop j with hlt | hge
      · exact h3 j (by omega) hj2
      · have : j = stop := by omega
        subst this
        exact hc

theorem slice_run (array : List α) (m e : Nat) (hme : m ≤ e) (hen : e ≤ array.length) :
    arraySlice array (m : Int) (some (e : Int)) = (array.drop m).take (e - m) := by
  simp only [arraySlice, clampEnd]
  rw [clampIndex_of_range _ _ (by omega) (by omega), clampIndex_of_range _ _ (by omega) (by omega)]
  simp

theorem splice_run (array : List α) (m e : Nat) (hme : m ≤ e) (hen : e ≤ array.length) :
    (arraySplice array (m : Int) (some ((e - m : Nat) : Int)) []).2 =
      array.take m ++ array.drop e := by
  simp only [arraySplice, spliceCount, List.append_nil]
  rw [clampIndex_of_range _ _ (by omega) (by omega)]
  simp only [Int.toNat_ofNat]
  split
  · congr 2
    omega
  · congr 2
    omega

/-- A storage cut at `m` and `e`: the part before `m`, the part from `m` up to `e`, the part
from `e` on. -/
theorem split_run (array : List α) (m e : Nat) (hme : m ≤ e) :
    array = array.take m ++ ((array.drop m).take (e - m) ++ array.drop e) := by
  have h1 := List.take_append_drop (e - m) (array.drop m)
  rw [List.drop_drop] at h1
  have e1 : m + (e - m) = e := by omega
  rw [e1] at h1
  rw [h1, List.take_append_drop]

/-- `deleteAll` without an equality override, for a `value` that `equals` does not take
`undefined` for: on a storage sorted under a total-preorder `compare`, with `equals a b`
holding exactly when `compare a b = 0`, the call returns once the scanning loop is given
`array.length` iterations; it returns the number of elements `equals` to `value` and leaves
the other elements in their order, with `length` reduced by the count. -/
theorem deleteAll_removes_run [HasUndefined α] (s : SortedArray α)
    (tp : TotalPreorder s.contentCompare) (hs : Sorted s.contentCompare s.array)
    (heq : ∀ a b, s.contentEquals a b = true ↔ s.contentCompare a b = 0) (value : α)
    (hund : s.contentEquals value undefined = false) (fuel : Nat)
    (hfuel : s.array.length ≤ fuel) :
    ∃ t, s.deleteAll fuel value none =
        some (((s.array.filter (fun x => s.contentEquals value x)).length : Int), t) ∧
      t.array = s.array.filter (fun x => !s.contentEquals value x) ∧
      t.length = s.length - (s.array.filter (fun x => s.contentEquals value x)).length := by
  obtain ⟨hfirst, hnone⟩ := searchFirst_least tp hs value s.contentEquals
    (fun x _ => heq value x)
  by_cases hex : ∃ x ∈ s.array, s.contentEquals value x = true
  · obtain ⟨hm0, hmn, hme, hmin⟩ := hfirst hex
    obtain ⟨m, hm⟩ := Int.eq_ofNat_of_zero_le hm0
    rw [hm] at hmn hme hmin
    obtain ⟨e, he, he1, he2, he3, he4⟩ := scanRun_spec s.array value s.contentEquals hund fuel
      (m : Int) (by omega) (by omega)
    have hlt : (m : Int) < e := by
      rcases lt_or_eq_of_le he1 with h | h
      · exact h
      · rw [← h, hme] at he4
        cases he4
    obtain ⟨k, hk⟩ := Int.eq_ofNat_of_zero_le (le_trans (Int.ofNat_zero_le m) he1)
    subst hk
    have hmk : m ≤ k := by omega
    have hkn : k ≤ s.array.length := by omega
    have hbefore : ∀ x ∈ s.array.take m, s.contentEquals value x = false := by
      intro x hx
      obtain ⟨i, hi, rfl⟩ := List.mem_take_iff_getElem.mp hx
      have hi1 : i < m := lt_of_lt_of_le hi (min_le_left _ _)
      have hi2 : i < s.array.length := lt_of_lt_of_le hi (min_le_right _ _)
      have h := hmin i (by omega) (by omega)
      rw [item_natCast s.array i hi2] at h
      exact h
    have hrun : ∀ x ∈ (s.array.drop m).take (k - m), s.contentEquals value x = true := by
      intro x hx
      obtain ⟨i, hi, rfl⟩ := List.mem_take_iff_getElem.mp hx
      have hi1 : i < k - m := lt_of_lt_of_le hi (min_le_left _ _)
      have h := he3 ((m + i : Nat) : Int) (by omega) (by omega)
      rw [item_natCast s.array (m + i) (by omega)] at h
      rw [List.getElem_drop]
      exact h
    have hafter : ∀ x ∈ s.array.drop k, s.contentEquals value x = false := by
      intro x hx
      obtain ⟨i, hi, rfl⟩ := List.mem_drop_iff_getElem.mp hx
      have hi2 : k + i < s.array.length := by omega
      cases hc : s.contentEquals value s.array[k + i]
      · rfl
      · exfalso
        have h1 : s.contentCompare value (item s.array ((k + i : Nat) : Int)) = 0 := by
          rw [item_natCast s.array (k + i) hi2]
          exact (heq _ _).mp hc
        have h2 := hs.zero_between tp value (m : Int) (k : Int) ((k + i : Nat) : Int)
          (by omega) (by omega) (by omega) (by omega) ((heq _ _).mp hme) h1
        rw [(heq _ _).mpr h2] at he4
        cases he4
    have hyes : s.array.filter (fun x => s.contentEquals value x) =
        (s.array.drop m).take (k - m) := by
      conv_lhs => rw [split_run s.array m k hmk]
      rw [List.filter_append, List.filter_append,
        List.filter_eq_nil_iff.mpr (fun x hx => by simp [hbefore x hx]),
        List.filter_eq_self.mpr hrun,
        List.filter_eq_nil_iff.mpr (fun x hx => by simp [hafter x hx])]
      simp
    have hno : s.array.filter (fun x => !s.contentEquals value x) =
        s.array.take m ++ s.array.drop k := by
      conv_lhs => rw [split_run s.array m k hmk]
      rw [List.filter_append, List.filter_append,
        List.filter_eq_self.mpr (fun x hx => by simp [hbefore x hx]),
        List.filter_eq_nil_iff.mpr (fun x hx => by simp [hrun x hx]),
        List.filter_eq_self.mpr (fun x hx => by simp [hafter x hx])]
      simp
    have hlen : ((s.array.drop m).take (k - m)).length = k - m := by
      rw [List.length_take, List.length_drop]
      omega
    have hstart : searchFirst s.array value s.contentCompare s.contentEquals ≠ -1 := by
      rw [hm]
      omega
    rw [hyes, hno, hlen]
    cases hd : s.dispatchesRangeChanges <;>
      simp [deleteAll, slice, hstart, hm, he, hd, slice_run s.array m k hmk hkn, hlen,
        splice_run s.array m k hmk hkn, dispatchBeforeRangeChange, dispatchRangeChange]
  · have hall : ∀ x ∈ s.array, s.contentEquals value x = false := by
      intro x hx
      cases hc : s.contentEquals value x
      · rfl
      · exact absurd ⟨x, hx, hc⟩ hex
    have hstart := hnone.mpr hall
    refine ⟨s, ?_, ?_, ?_⟩
    · rw [List.filter_eq_nil_iff.mpr (fun x hx => by simp [hall x hx])]
      simp [deleteAll, hstart]
    · exact (List.filter_eq_self.mpr (fun x hx => by simp [hall x hx])).symm
    · rw [List.filter_eq_nil_iff.mpr (fun x hx => by simp [hall x hx])]
      simp

/-- The statement above at the storage `[1, 3, 3, 3, 5]` and the value `3`: the hypotheses
hold there, and `deleteAll 3` returns `3` and leaves `[1, 5]` with `length = 2`. -/
theorem deleteAll_removes_run_witness :
    TotalPreorder byKey ∧ Sorted byKey [num 1, num 3, num 3, num 3, num 5] ∧
    (∀ a b, sameKey a b = true ↔ byKey a b = 0) ∧ sameKey (num 3) Val.undefined = false ∧
    ((ofStorage [num 1, num 3, num 3, num 3, num 5] sameKey false).deleteAll 5 (num 3)
      none).map (fun r => (r.1, r.2.array, r.2.length)) = some (3, [num 1, num 5], 2) ∧
    ∃ t, (ofStorage [num 1, num 3, num 3, num 3, num 5] sameKey false).deleteAll 5 (num 3) none =
        some ((([num 1, num 3, num 3, num 3, num 5].filter
          (fun x => sameKey (num 3) x)).length : Int), t) ∧
      t.array = [num 1, num 3, num 3, num 3, num 5].filter (fun x => !sameKey (num 3) x) ∧
      t.length = (5 : Int) - ([num 1, num 3, num 3, num 3, num 5].filter
          (fun x => sameKey (num 3) x)).length :=
  ⟨byKey_totalPreorder, by decide, sameKey_iff, by decide, by decide,
    deleteAll_removes_run (ofStorage [num 1, num 3, num 3, num 3, num 5] sameKey false)
      byKey_totalPreorder (by decide) sameKey_iff (num 3) (by decide) 5 (by decide)⟩

/-! ## The range of the search results, for any comparator -/

theorem searchLoop_range [HasUndefined α] (array : List α) (value : α) (compare : α → α → Int) :
    ∀ (fuel : Nat) (first last r : Int), 0 ≤ first → last < array.length → first ≤ last + 1 →
      searchLoop array value compare fuel first last = some r →
      -((array.length : Int) + 1) ≤ r ∧ r < array.length := by
  intro fuel
  induction fuel with
  | zero =>
    intro first last r h0 hl hfl h
    by_cases hle : first ≤ last
    · simp [searchLoop, hle] at h
    · simp only [searchLoop, hle, if_false, Option.some.injEq] at h
      omega
  | succ fuel ih =>
    intro first last r h0 hl hfl h
    by_cases hle : first ≤ last
    · obtain ⟨hm1, hm2⟩ := middle_bounds first last hle
      rcases lt_trichotomy (compare value (item array ((first + last) >>> (1 : Nat)))) 0
        with hc | hc | hc
      · have hstep : searchLoop array value compare (fuel + 1) first last =
            searchLoop array value compare fuel first ((first + last) >>> (1 : Nat) - 1) := by
          simp [searchLoop, hle, hc, not_lt.mpr (le_of_lt hc)]
        rw [hstep] at h
        exact ih first _ r h0 (by omega) (by omega) h
      · have hstep : searchLoop array value compare (fuel + 1) first last =
            some ((first + last) >>> (1 : Nat)) := by
          simp [searchLoop, hle, hc]
        rw [hstep, Option.some.injEq] at h
        omega
      · have hstep : searchLoop array value compare (fuel + 1) first last =
            searchLoop array value compare fuel ((first + last) >>> (1 : Nat) + 1) last := by
          simp [searchLoop, hle, hc]
        rw [hstep] at h
        exact ih _ last r (by omega) hl (by omega) h
    · simp only [searchLoop, hle, if_false, Option.some.injEq] at h
      omega

/-- The loop of `search` returns what `search` returns: the fuel `array.length` is enough. -/
theorem search_eq_loop [HasUndefined α] (array : List α) (value : α) (compare : α → α → Int) :
    searchLoop array value compare array.length 0 (array.length - 1) =
      some (search array value compare) := by
  obtain ⟨r, hr⟩ := searchLoop_terminates array value compare array.length 0
    (array.length - 1) (by omega)
  simp [search, hr]

theorem search_range [HasUndefined α] (array : List α) (value : α) (compare : α → α → Int) :
    -((array.length : Int) + 1) ≤ search array value compare ∧
    search array value compare < array.length :=
  searchLoop_range array value compare array.length 0 (array.length - 1) _ (le_refl 0)
    (by omega) (by omega) (search_eq_loop array value compare)

theorem searchFirst_range [HasUndefined α] (array : List α) (value : α)
    (compare : α → α → Int) (equals : α → α → Bool) :
    searchFirst array value compare equals = -1 ∨
    (0 ≤ searchFirst array value compare equals ∧
      searchFirst array value compare equals < array.length) := by
  obtain ⟨-, hn⟩ := search_range array value compare
  by_cases hneg : search array value compare < 0
  · exact Or.inl (by simp [searchFirst, hneg])
  · obtain ⟨p, hp⟩ := Int.eq_ofNat_of_zero_le (not_lt.mp hneg)
    obtain ⟨hw1, -, -⟩ := walkLeft_spec array value equals p
    cases hem : equals value (item array ((walkLeft array value equals p : Nat) : Int))
    · exact Or.inl (by simp [searchFirst, hneg, hp, hem])
    · have hr : searchFirst array value compare equals =
          ((walkLeft array value equals p : Nat) : Int) := by
        simp [searchFirst, hneg, hp, hem]
      rw [hr]
      exact Or.inr ⟨by omega, by omega⟩

/-! ## The length field -/

theorem add_array_length [HasUndefined α] (s : SortedArray α) (value : α) :
    (s.add value).array.length = s.array.length + 1 := by
  rw [(add_perm s value).length_eq]
  rfl

theorem addEach_array_length [HasUndefined α] (s : SortedArray α) (values : List α) :
    (s.addEach values).array.length = s.array.length + values.length := by
  rw [(addEach_perm values s).length_eq, List.length_append]

/-- What `splice` leaves when it removes as many elements as `slice` returned from the same
start. -/
theorem splice_slice_length (array : List α) (start : Int) (stop : Option Int) :
    (arraySlice array start stop).length ≤ array.length ∧
    (arraySplice array start (some ((arraySlice array start stop).length : Int)) []).2.length =
      array.length - (arraySlice array start stop).length := by
  have hk := clampIndex_le array.length start
  have hml : (arraySlice array start stop).length ≤ array.length - clampIndex array.length start := by
    simp only [arraySlice, List.length_take, List.length_drop]
    exact min_le_right _ _
  refine ⟨by omega, ?_⟩
  generalize (arraySlice array start stop).length = ml at hml
  simp only [arraySplice, spliceCount, List.append_nil, List.length_append, List.length_take,
    List.length_drop, Int.toNat_ofNat]
  split <;> omega

theorem clampIndex_natCast (len k : Nat) : clampIndex len (k : Int) = min k len := by
  unfold clampIndex
  split
  · omega
  · split
    · rw [Int.toNat_ofNat]
      omega
    · omega

/-- With a start that is not negative and a count that is not negative or left out, `splice`
removes as many elements as `slice` returns for the same range. -/
theorem splice_length_in_range (array : List α) (index : Int) (length : Option Int)
    (h : ∀ l, length = some l → 0 ≤ l ∧ 0 ≤ index) :
    ((arraySplice array index length []).2.length : Int) =
      array.length - (arraySlice array index (length.map (fun l => index + l))).length := by
  have hk := clampIndex_le array.length index
  cases length with
  | none =>
    simp only [arraySplice, arraySlice, clampEnd, spliceCount, Option.map_none',
      List.append_nil, List.length_append, List.length_take, List.length_drop]
    omega
  | some l =>
    obtain ⟨hl, hi⟩ := h l rfl
    obtain ⟨a, rfl⟩ := Int.eq_ofNat_of_zero_le hi
    obtain ⟨b, rfl⟩ := Int.eq_ofNat_of_zero_le hl
    have e : (a : Int) + (b : Int) = ((a + b : Nat) : Int) := by omega
    simp only [arraySplice, arraySlice, clampEnd, spliceCount, Option.map_some', e,
      clampIndex_natCast, Int.toNat_ofNat,
      List.append_nil, List.length_append, List.length_take, List.length_drop]
    split <;> omega

/-- The parts of a `swap` that is given an index or a length: what it returns, and the
container that `addEach plus` is then called on. -/
theorem swap_parts [HasUndefined α] (s : SortedArray α) (index length : Option Int)
    (plus : List α) (h : ¬ (index = none ∧ length = none)) :
    (s.swap index length plus).1 =
      arraySlice s.array (if index.getD 0 < 0 then index.getD 0 + s.length else index.getD 0)
        (length.map (fun l =>
          (if index.getD 0 < 0 then index.getD 0 + s.length else index.getD 0) + l)) ∧
    ∃ t : SortedArray α, (s.swap index length plus).2 = t.addEach plus ∧
      t.array = (arraySplice s.array
        (if index.getD 0 < 0 then index.getD 0 + s.length else index.getD 0) length []).2 ∧
      t.length = s.length - (arraySlice s.array
        (if index.getD 0 < 0 then index.getD 0 + s.length else index.getD 0)
        (length.map (fun l =>
          (if index.getD 0 < 0 then index.getD 0 + s.length else index.getD 0) + l))).length := by
  unfold swap
  rw [if_neg h]
  refine ⟨rfl, _, rfl, ?_, ?_⟩
  · cases hd : s.dispatchesRangeChanges <;>
      simp [hd, dispatchBeforeRangeChange, dispatchRangeChange]
  · cases hd : s.dispatchesRangeChanges <;>
      simp [hd, dispatchBeforeRangeChange, dispatchRangeChange, slice]

/-- How far the length invariant holds: from a container whose `length` is the number of
stored elements, `add`, `delete`, `deleteAll` (when it returns), `push`, `unshift`, `pop`,
`shift` and `clear` lead to such a container again, and so do `swap` and `splice` when the
length argument is left out, or is not negative and the index is not below `-length`. -/
theorem length_invariant_in_range [HasUndefined α] (s : SortedArray α)
    (hinv : s.length = s.array.length) :
    (∀ value, (s.add value).length = (s.add value).array.length) ∧
    (∀ value, (s.delete value).2.length = (s.delete value).2.array.length) ∧
    (∀ fuel value equals r, s.deleteAll fuel value equals = some r →
      r.2.length = r.2.array.length) ∧
    (∀ values, (s.push values).length = (s.push values).array.length) ∧
    (∀ values, (s.unshift values).length = (s.unshift values).array.length) ∧
    s.pop.2.length = s.pop.2.array.length ∧
    s.shift.2.length = s.shift.2.array.length ∧
    s.clear.length = s.clear.array.length ∧
    (∀ index length plus,
      (∀ l, length = some l → 0 ≤ l ∧ ∀ i, index = some i → -s.length ≤ i) →
      (s.swap index length plus).2.length = (s.swap index length plus).2.array.length ∧
      (s.splice index length plus).2.length = (s.splice index length plus).2.array.length) := by
  refine ⟨?_, ?_, ?_, ?_, ?_, rfl, rfl, ?_, ?_⟩
  · intro value
    rw [add_length, add_array_length, hinv]
    push_cast
    rfl
  · intro value
    by_cases h : searchFirst s.array value s.contentCompare s.contentEquals = -1
    · rw [delete_not_found s value h]
      exact hinv
    · obtain ⟨-, d2, d3⟩ := delete_found s value h
      rcases searchFirst_range s.array value s.contentCompare s.contentEquals with h1 | ⟨h0, hn⟩
      · exact absurd h1 h
      · rw [d2, d3, hinv, spliceOne, List.length_eraseIdx, if_pos (by omega)]
        omega
  · intro fuel value equals r hr
    cases equals with
    | some equals =>
      simp only [deleteAll, Option.some.injEq] at hr
      subst hr
      have := List.length_eq_length_filter_add (l := s.array) (fun x => equals value x)
      simp only [arrayDeleteAll, hinv]
      omega
    | none =>
      by_cases hstart : searchFirst s.array value s.contentCompare s.contentEquals = -1
      · simp only [deleteAll, hstart, ne_eq, not_true_eq_false, if_false,
          Option.some.injEq] at hr
        subst hr
        exact hinv
      · simp only [deleteAll, hstart, ne_eq, not_false_eq_true, if_true] at hr
        cases hscan : scanRun s.array value s.contentEquals fuel
            (searchFirst s.array value s.contentCompare s.contentEquals) with
        | none => simp [hscan] at hr
        | some stop =>
          simp only [hscan, Option.some.injEq] at hr
          subst hr
          obtain ⟨h1, h2⟩ := splice_slice_length s.array
            (searchFirst s.array value s.contentCompare s.contentEquals) (some stop)
          cases hd : s.dispatchesRangeChanges <;>
            simp only [slice, hd, dispatchBeforeRangeChange, dispatchRangeChange, if_true,
              if_false, Bool.false_eq_true, h2, hinv] <;>
            omega
  · intro values
    rw [push, addEach_length, addEach_array_length, hinv]
    push_cast
    rfl
  · intro values
    rw [unshift, addEach_length, addEach_array_length, hinv]
    push_cast
    rfl
  · cases hd : s.dispatchesRangeChanges <;>
      simp [clear, hd, dispatchBeforeRangeChange, dispatchRangeChange]
  · intro index length plus hrange
    have hswap : (s.swap index length plus).2.length =
        (s.swap index length plus).2.array.length := by
      by_cases hboth : index = none ∧ length = none
      · simp [swap, hboth, hinv]
      · obtain ⟨-, t, ht, ht1, ht2⟩ := swap_parts s index length plus hboth
        have hsl := splice_length_in_range s.array
          (if index.getD 0 < 0 then index.getD 0 + s.length else index.getD 0) length
          (by
            intro l hl
            obtain ⟨h1, h2⟩ := hrange l hl
            refine ⟨h1, ?_⟩
            cases index with
            | none => simp
            | some i =>
              have := h2 i rfl
              simp only [Option.getD_some]
              split <;> omega)
        rw [ht, addEach_length, addEach_array_length, ht2, ht1]
        push_cast
        omega
    exact ⟨hswap, hswap⟩

/-- The statement above at the storage `[10, 20, 30]`: its `length` is `3`, and
`swap(-3, 1, [15, 25])` leads to the storage `[15, 20, 25, 30]` with `length = 4`. -/
theorem length_invariant_in_range_witness :
    (ofStorage [num 10, num 20, num 30] sameKey false).length =
      (ofStorage [num 10, num 20, num 30] sameKey false).array.length ∧
    ((ofStorage [num 10, num 20, num 30] sameKey false).swap (some (-3)) (some 1)
      [num 15, num 25]).2.array = [num 15, num 20, num 25, num 30] ∧
    ((ofStorage [num 10, num 20, num 30] sameKey false).swap (some (-3)) (some 1)
      [num 15, num 25]).2.length = 4 ∧
    (∀ value, ((ofStorage [num 10, num 20, num 30] sameKey false).delete value).2.length =
      ((ofStorage [num 10, num 20, num 30] sameKey false).delete value).2.array.length) :=
  ⟨by decide, by decide, by decide,
    (length_invariant_in_range (ofStorage [num 10, num 20, num 30] sameKey false)
      (by decide)).2.1⟩

/-! ## The search loop with its reads -/

theorem searchTrace_snd [HasUndefined α] (array : List α) (value : α) (compare : α → α → Int) :
    ∀ (fuel : Nat) (first last : Int),
      (searchTrace array value compare fuel first last).2 =
        searchLoop array value compare fuel first last := by
  intro fuel
  induction fuel with
  | zero => intro first last; rfl
  | succ fuel ih =>
    intro first last
    simp only [searchTrace, searchLoop]
    split
    · split
      · exact ih _ _
      · split
        · exact ih _ _
        · rfl
    · rfl

/-- The loop of `search` reads only between `first` and `last`, and no more often than the
interval has indices. -/
theorem searchTrace_reads [HasUndefined α] (array : List α) (value : α)
    (compare : α → α → Int) :
    ∀ (fuel : Nat) (first last : Int),
      ((searchTrace array value compare fuel first last).1.length : Int) ≤
        max 0 (last - first + 1) ∧
      ∀ i ∈ (searchTrace array value compare fuel first last).1, first ≤ i ∧ i ≤ last := by
  intro fuel
  induction fuel with
  | zero =>
    intro first last
    simp [searchTrace]
  | succ fuel ih =>
    intro first last
    by_cases hle : first ≤ last
    · obtain ⟨hm1, hm2⟩ := middle_bounds first last hle
      rcases lt_trichotomy (compare value (item array ((first + last) >>> (1 : Nat)))) 0
        with hc | hc | hc
      · have hstep : searchTrace array value compare (fuel + 1) first last =
            ((first + last) >>> (1 : Nat) ::
              (searchTrace array value compare fuel first
                ((first + last) >>> (1 : Nat) - 1)).1,
              (searchTrace array value compare fuel first
                ((first + last) >>> (1 : Nat) - 1)).2) := by
          simp [searchTrace, hle, hc, not_lt.mpr (le_of_lt hc)]
        obtain ⟨h1, h2⟩ := ih first ((first + last) >>> (1 : Nat) - 1)
        rw [hstep]
        refine ⟨?_, ?_⟩
        · simp only [List.length_cons]
          push_cast
          omega
        · intro i hi
          rcases List.mem_cons.mp hi with rfl | hi
          · exact ⟨hm1, hm2⟩
          · have := h2 i hi
            omega
      · have hstep : searchTrace array value compare (fuel + 1) first last =
            ([(first + last) >>> (1 : Nat)], some ((first + last) >>> (1 : Nat))) := by
          simp [searchTrace, hle, hc]
        rw [hstep]
        refine ⟨?_, ?_⟩
        · simp only [List.length_singleton]
          push_cast
          omega
        · intro i hi
          rw [List.mem_singleton.mp hi]
          exact ⟨hm1, hm2⟩
      · have hstep : searchTrace array value compare (fuel + 1) first last =
            ((first + last) >>> (1 : Nat) ::
              (searchTrace array value compare fuel ((first + last) >>> (1 : Nat) + 1)
                last).1,
              (searchTrace array value compare fuel ((first + last) >>> (1 : Nat) + 1)
                last).2) := by
          simp [searchTrace, hle, hc]
        obtain ⟨h1, h2⟩ := ih ((first + last) >>> (1 : Nat) + 1) last
        rw [hstep]
        refine ⟨?_, ?_⟩
        · simp only [List.length_cons]
          push_cast
          omega
        · intro i hi
          rcases List.mem_cons.mp hi with rfl | hi
          · exact ⟨hm1, hm2⟩
          · have := h2 i hi
            omega
    · simp [searchTrace, hle]

theorem searchForInsertionIndex_range [HasUndefined α] (array : List α) (value : α)
    (compare : α → α → Int) :
    0 ≤ searchForInsertionIndex array value compare ∧
    searchForInsertionIndex array value compare ≤ array.length := by
  obtain ⟨hlo, hhi⟩ := search_range array value compare
  by_cases hneg : search array value compare < 0
  · have hr : searchForInsertionIndex array value compare = -search array value compare - 1 := by
      simp [searchForInsertionIndex, hneg]
    rw [hr]
    omega
  · obtain ⟨hw1, hw2, -, -⟩ := walkRight_spec array (fun x => compare value x == 0)
      ((array.length : Int) - 1 - search array value compare).toNat (search array value compare)
    have hr : searchForInsertionIndex array value compare =
        walkRight array (fun x => compare value x == 0)
          ((array.length : Int) - 1 - search array value compare).toNat
          (search array value compare) := by
      simp [searchForInsertionIndex, hneg]
    rw [hr]
    have hsteps : (((array.length : Int) - 1 - search array value compare).toNat : Int) =
        (array.length : Int) - 1 - search array value compare := by
      omega
    rw [hsteps] at hw2
    omega

/-! ## Removing the first match, the last slot, the first slot -/

/-- C13: `delete value` returns `true` exactly when `indexOf value` is not `-1`; when it
does, `indexOf value` is an index of the storage, the storage after the call is the storage
before it without the element at that index, and `length` is one less; when it returns
`false`, the storage, `length` and the events dispatched are as before. -/
theorem delete_first_match_or_nothing [HasUndefined α] (s : SortedArray α) (value : α) :
    ((s.delete value).1 = true ↔ s.indexOf value ≠ -1) ∧
    (s.indexOf value ≠ -1 →
      0 ≤ s.indexOf value ∧ s.indexOf value < s.array.length ∧
      (s.delete value).2.array =
        s.array.take (s.indexOf value).toNat ++ s.array.drop ((s.indexOf value).toNat + 1) ∧
      (s.delete value).2.length = s.length - 1) ∧
    (s.indexOf value = -1 →
      (s.delete value).2.array = s.array ∧ (s.delete value).2.length = s.length ∧
      (s.delete value).2.dispatched = s.dispatched) := by
  unfold indexOf
  by_cases h : searchFirst s.array value s.contentCompare s.contentEquals = -1
  · rw [delete_not_found s value h]
    simp [h]
  · obtain ⟨d1, d2, d3⟩ := delete_found s value h
    rcases searchFirst_range s.array value s.contentCompare s.contentEquals with h1 | ⟨h0, hn⟩
    · exact absurd h1 h
    · refine ⟨⟨fun _ => h, fun _ => d1⟩, fun _ => ⟨h0, hn, ?_, d3⟩, fun h1 => absurd h1 h⟩
      rw [d2, spliceOne, List.eraseIdx_eq_take_drop_succ]

/-- C12, as amended: on a non-empty storage sorted under a total-preorder `compare`, `pop`
returns an element that every element of the storage compares `≤ 0` to and leaves the storage
without its last slot; `shift` returns an element that compares `≤ 0` to every element and leaves the
storage without its first slot; after either call `length` is one less than the number of
elements stored before, which is one less than `length` was when `length` was in step with
the storage. -/
theorem pop_shift_extremes [HasUndefined α] (s : SortedArray α)
    (tp : TotalPreorder s.contentCompare) (hs : Sorted s.contentCompare s.array)
    (hne : s.array ≠ []) :
    (∀ x ∈ s.array, s.contentCompare x s.pop.1 ≤ 0) ∧
    s.array = s.pop.2.array ++ [s.pop.1] ∧
    s.pop.2.length = (s.array.length : Int) - 1 ∧
    (∀ x ∈ s.array, s.contentCompare s.shift.1 x ≤ 0) ∧
    s.array = s.shift.1 :: s.shift.2.array ∧
    s.shift.2.length = (s.array.length : Int) - 1 ∧
    (s.length = s.array.length →
      s.pop.2.length = s.length - 1 ∧ s.shift.2.length = s.length - 1) := by
  have hp := hs.pairwise tp
  have hlen : 0 < s.array.length := List.length_pos.mpr hne
  have hpop : s.pop.1 = s.array.getLast hne := by
    simp [pop, List.getLast?_eq_getLast _ hne]
  have hshift : s.shift.1 = s.array.head hne := by
    simp [shift, List.head?_eq_head hne]
  have hpoplen : s.pop.2.length = (s.array.length : Int) - 1 := by
    simp only [pop, List.length_dropLast]
    omega
  have hshiftlen : s.shift.2.length = (s.array.length : Int) - 1 := by
    simp only [shift, List.length_tail]
    omega
  have hsplit : s.array = s.array.dropLast ++ [s.array.getLast hne] :=
    (List.dropLast_append_getLast hne).symm
  have hcons : s.array = s.array.head hne :: s.array.tail :=
    (List.head_cons_tail s.array hne).symm
  refine ⟨?_, ?_, hpoplen, ?_, ?_, hshiftlen, ?_⟩
  · intro x hx
    rw [hpop]
    rw [hsplit] at hx hp
    rcases List.mem_append.mp hx with hx | hx
    · exact (List.pairwise_append.mp hp).2.2 x hx _ (List.mem_singleton.mpr rfl)
    · rw [List.mem_singleton.mp hx]
      exact le_of_eq (tp.refl _)
  · rw [hpop]
    exact hsplit
  · intro x hx
    rw [hshift]
    rw [hcons] at hx hp
    rcases List.mem_cons.mp hx with hx | hx
    · rw [hx]
      exact le_of_eq (tp.refl _)
    · exact List.rel_of_pairwise_cons hp hx
  · rw [hshift]
    exact hcons
  · intro hinv
    rw [hpoplen, hshiftlen, hinv]
    exact ⟨rfl, rfl⟩

/-- The statement of C12 at the storage `[1, 3, 5]` under `byKey`: the hypotheses hold, `pop`
returns `5` and leaves `[1, 3]`, `shift` returns `1` and leaves `[3, 5]`, and `length` goes
from `3` to `2`. -/
theorem pop_shift_extremes_witness :
    TotalPreorder byKey ∧ Sorted byKey [num 1, num 3, num 5] ∧
    ([num 1, num 3, num 5] : List Val) ≠ [] ∧
    (ofStorage [num 1, num 3, num 5] sameKey false).pop.1 = num 5 ∧
    (ofStorage [num 1, num 3, num 5] sameKey false).pop.2.array = [num 1, num 3] ∧
    (ofStorage [num 1, num 3, num 5] sameKey false).shift.1 = num 1 ∧
    (ofStorage [num 1, num 3, num 5] sameKey false).shift.2.array = [num 3, num 5] ∧
    (ofStorage [num 1, num 3, num 5] sameKey false).pop.2.length = 2 ∧
    (∀ x ∈ [num 1, num 3, num 5],
      byKey x (ofStorage [num 1, num 3, num 5] sameKey false).pop.1 ≤ 0) ∧
    (∀ x ∈ [num 1, num 3, num 5],
      byKey (ofStorage [num 1, num 3, num 5] sameKey false).shift.1 x ≤ 0) :=
  ⟨byKey_totalPreorder, by decide, by decide, by decide, by decide, by decide, by decide,
    by decide,
    (pop_shift_extremes (ofStorage [num 1, num 3, num 5] sameKey false) byKey_totalPreorder
      (by decide) (by decide)).1,
    (pop_shift_extremes (ofStorage [num 1, num 3, num 5] sameKey false) byKey_totalPreorder
      (by decide) (by decide)).2.2.2.1⟩

/-! ## The events of `add` -/

theorem add_dispatched [HasUndefined α] (s : SortedArray α) (value : α) :
    (s.add value).dispatched =
      s.dispatched ++
        (if s.dispatchesRangeChanges then
          [⟨Phase.before, [value], [], searchForInsertionIndex s.array value s.contentCompare⟩,
            ⟨Phase.after, [value], [], searchForInsertionIndex s.array value s.contentCompare⟩]
        else []) := by
  cases hd : s.dispatchesRangeChanges <;>
    simp [add, hd, dispatchBeforeRangeChange, dispatchRangeChange]

/-- C16: with notification enabled, `add value` dispatches exactly two events, a
before-event and then an after-event, both `(added = [value], removed = [], index = i)`,
where `i` is an index of the storage after the call at which `value` is located, and the
storage after the call without that slot is the storage before the call. -/
theorem add_events [HasUndefined α] (s : SortedArray α) (value : α)
    (hd : s.dispatchesRangeChanges = true) :
    (s.add value).dispatched =
      s.dispatched ++
        [⟨Phase.before, [value], [], searchForInsertionIndex s.array value s.contentCompare⟩,
          ⟨Phase.after, [value], [], searchForInsertionIndex s.array value s.contentCompare⟩] ∧
    0 ≤ searchForInsertionIndex s.array value s.contentCompare ∧
    searchForInsertionIndex s.array value s.contentCompare < (s.add value).array.length ∧
    item (s.add value).array (searchForInsertionIndex s.array value s.contentCompare) = value ∧
    (s.add value).array.eraseIdx
      (searchForInsertionIndex s.array value s.contentCompare).toNat = s.array := by
  obtain ⟨h0, hn⟩ := searchForInsertionIndex_range s.array value s.contentCompare
  obtain ⟨k, hk⟩ := Int.eq_ofNat_of_zero_le h0
  have hkn : k ≤ s.array.length := by omega
  have harr : (s.add value).array = s.array.take k ++ [value] ++ s.array.drop k := by
    rw [add_array, clampIndex_of_range _ _ h0 hn, hk, Int.toNat_ofNat]
  refine ⟨?_, h0, ?_, ?_, ?_⟩
  · rw [add_dispatched, hd]
    rfl
  · rw [add_array_length]
    push_cast
    omega
  · rw [harr, hk]
    exact item_insert_at s.array value k hkn
  · rw [harr, hk, Int.toNat_ofNat]
    exact eraseIdx_insert s.array value k hkn

/-- The statement of C16 at the storage `[1, 2, 3, 5]` with notification enabled and the
value `4`: the two events carry the index `3`, and the storage after the call is
`[1, 2, 3, 4, 5]`. -/
theorem add_events_witness :
    (ofStorage [num 1, num 2, num 3, num 5] sameKey true).dispatchesRangeChanges = true ∧
    ((ofStorage [num 1, num 2, num 3, num 5] sameKey true).add (num 4)).dispatched =
      [⟨Phase.before, [num 4], [], 3⟩, ⟨Phase.after, [num 4], [], 3⟩] ∧
    ((ofStorage [num 1, num 2, num 3, num 5] sameKey true).add (num 4)).array =
      [num 1, num 2, num 3, num 4, num 5] ∧
    item ((ofStorage [num 1, num 2, num 3, num 5] sameKey true).add (num 4)).array
      (searchForInsertionIndex (ofStorage [num 1, num 2, num 3, num 5] sameKey true).array
        (num 4) (ofStorage [num 1, num 2, num 3, num 5] sameKey true).contentCompare) =
      num 4 :=
  ⟨rfl, by decide, by decide,
    (add_events (ofStorage [num 1, num 2, num 3, num 5] sameKey true) (num 4) rfl).2.2.2.1⟩

/-! ## The events of `swap` -/

theorem add_array_splice [HasUndefined α] (s : SortedArray α) (value : α) :
    (s.add value).array =
      (arraySplice s.array (searchForInsertionIndex s.array value s.contentCompare) (some 0)
        [value]).2 := by
  cases hd : s.dispatchesRangeChanges <;>
    simp [add, hd, dispatchBeforeRangeChange, dispatchRangeChange]

theorem addEach_dispatchesRangeChanges [HasUndefined α] (values : List α) :
    ∀ s : SortedArray α,
      (s.addEach values).dispatchesRangeChanges = s.dispatchesRangeChanges := by
  induction values with
  | nil => intro s; rfl
  | cons value values ih =>
    intro s
    rw [addEach_cons, ih, add_dispatchesRangeChanges]

/-- What `addEach` dispatches: with notification enabled the expected events of the
insertions, else nothing. -/
theorem addEach_dispatched [HasUndefined α] (values : List α) :
    ∀ s : SortedArray α, (s.addEach values).dispatched =
      s.dispatched ++
        (if s.dispatchesRangeChanges then insertionEvents s.contentCompare s.array values
        else []) := by
  induction values with
  | nil =>
    intro s
    cases hd : s.dispatchesRangeChanges <;> simp [addEach_nil, insertionEvents]
  | cons value values ih =>
    intro s
    rw [addEach_cons, ih, add_dispatched, add_dispatchesRangeChanges, add_contentCompare,
      add_array_splice]
    cases hd : s.dispatchesRangeChanges <;> simp [insertionEvents]

theorem insertionEvents_length [HasUndefined α] (compare : α → α → Int) (values : List α) :
    ∀ array : List α, (insertionEvents compare array values).length = 2 * values.length := by
  induction values with
  | nil => intro array; rfl
  | cons value values ih =>
    intro array
    simp only [insertionEvents, List.length_cons, ih]
    omega

/-- For a start that is not negative and a count that is not negative or left out, `slice`
returns the range that `splice` removes. -/
theorem slice_eq_removed (array : List α) (index : Int) (length : Option Int)
    (h0 : 0 ≤ index) (hl : ∀ l, length = some l → 0 ≤ l) :
    arraySlice array index (length.map (fun l => index + l)) =
      (arraySplice array index length []).1 := by
  obtain ⟨a, rfl⟩ := Int.eq_ofNat_of_zero_le h0
  cases length with
  | none =>
    simp only [arraySplice, arraySlice, clampEnd, spliceCount, Option.map_none']
  | some l =>
    obtain ⟨b, rfl⟩ := Int.eq_ofNat_of_zero_le (hl l rfl)
    have e : (a : Int) + (b : Int) = ((a + b : Nat) : Int) := by omega
    simp only [arraySplice, arraySlice, clampEnd, spliceCount, Option.map_some', e,
      clampIndex_natCast, Int.toNat_ofNat]
    congr 1
    split <;> omega

/-- For an index that is not negative and a length that is not negative or left out, `swap`
returns the range that its `splice` removes. -/
theorem swap_returned [HasUndefined α] (s : SortedArray α) (index : Int) (length : Option Int)
    (plus : List α) (h0 : 0 ≤ index) (hl : ∀ l, length = some l → 0 ≤ l) :
    (s.swap (some index) length plus).1 = (arraySplice s.array index length []).1 := by
  have hsl := slice_eq_removed s.array index length h0 hl
  have hnot : ¬ index < 0 := not_lt.mpr h0
  simp [swap, slice, hnot, hsl]

/-- C15: for an index that is not negative and a length that is not negative (or left out),
`swap index length plus` returns the range `minus` that it removes; with notification enabled
it dispatches exactly the before-event `(plus, minus, index)`, the after-event
`([], minus, index)`, and then, for each value of `plus` in order, a before-event and an
after-event `([value], [], insertion index of the value)`, two events for each value; with
notification disabled it dispatches nothing. -/
theorem swap_events [HasUndefined α] (s : SortedArray α) (index : Int) (length : Option Int)
    (plus : List α) (h0 : 0 ≤ index) (hl : ∀ l, length = some l → 0 ≤ l) :
    (s.swap (some index) length plus).1 = (arraySplice s.array index length []).1 ∧
    (s.dispatchesRangeChanges = true →
      (s.swap (some index) length plus).2.dispatched =
        s.dispatched ++
          [⟨Phase.before, plus, (arraySplice s.array index length []).1, index⟩,
            ⟨Phase.after, [], (arraySplice s.array index length []).1, index⟩] ++
          insertionEvents s.contentCompare (arraySplice s.array index length []).2 plus) ∧
    (insertionEvents s.contentCompare (arraySplice s.array index length []).2 plus).length =
      2 * plus.length ∧
    (s.dispatchesRangeChanges = false →
      (s.swap (some index) length plus).2.dispatched = s.dispatched) := by
  have hsl := slice_eq_removed s.array index length h0 hl
  have hnot : ¬ index < 0 := not_lt.mpr h0
  refine ⟨swap_returned s index length plus h0 hl, ?_, insertionEvents_length _ _ _, ?_⟩
  · intro hd
    simp [swap, slice, hnot, hsl, hd, addEach_dispatched, dispatchBeforeRangeChange,
      dispatchRangeChange]
  · intro hd
    simp [swap, hnot, hd, addEach_dispatched]

/-- The statement of C15 at the storage `[10, 20, 30]` with notification enabled and the call
`swap(1, 1, [15, 25])`: it returns `[20]`, leaves `[10, 15, 25, 30]`, and dispatches the six
events of the two phases. -/
theorem swap_events_witness :
    (0 : Int) ≤ 1 ∧ (∀ l : Int, some (1 : Int) = some l → 0 ≤ l) ∧
    ((ofStorage [num 10, num 20, num 30] sameKey true).swap (some 1) (some 1)
      [num 15, num 25]).1 = [num 20] ∧
    ((ofStorage [num 10, num 20, num 30] sameKey true).swap (some 1) (some 1)
      [num 15, num 25]).2.array = [num 10, num 15, num 25, num 30] ∧
    ((ofStorage [num 10, num 20, num 30] sameKey true).swap (some 1) (some 1)
      [num 15, num 25]).2.dispatched =
      [⟨Phase.before, [num 15, num 25], [num 20], 1⟩, ⟨Phase.after, [], [num 20], 1⟩,
        ⟨Phase.before, [num 15], [], 1⟩, ⟨Phase.after, [num 15], [], 1⟩,
        ⟨Phase.before, [num 25], [], 2⟩, ⟨Phase.after, [num 25], [], 2⟩] ∧
    ((ofStorage [num 10, num 20, num 30] sameKey true).swap (some 1) (some 1)
      [num 15, num 25]).1 =
      (arraySplice (ofStorage [num 10, num 20, num 30] sameKey true).array 1 (some 1) []).1 :=
  ⟨by decide, fun l h => by cases h; decide, by decide, by decide, by decide,
    (swap_events (ofStorage [num 10, num 20, num 30] sameKey true) 1 (some 1)
      [num 15, num 25] (by decide) (fun l h => by cases h; decide)).1⟩

/-! ## `has` and `indexOf` -/

/-- When `search` lands on an element that is `equals` to `value`, `searchFirst` finds an
index. -/
theorem searchFirst_ne_of_landing [HasUndefined α] (array : List α) (value : α)
    (compare : α → α → Int) (equals : α → α → Bool)
    (h0 : 0 ≤ search array value compare)
    (he : equals value (item array (search array value compare)) = true) :
    searchFirst array value compare equals ≠ -1 := by
  obtain ⟨p, hp⟩ := Int.eq_ofNat_of_zero_le h0
  obtain ⟨hw1, hw2, -⟩ := walkLeft_spec array value equals p
  have hem : equals value (item array ((walkLeft array value equals p : Nat) : Int)) = true := by
    rcases Nat.lt_or_ge (walkLeft array value equals p) p with hlt | hge
    · exact hw2 _ (le_refl _) hlt
    · have e : walkLeft array value equals p = p := by omega
      rw [e, ← hp]
      exact he
  have hr : searchFirst array value compare equals =
      ((walkLeft array value equals p : Nat) : Int) := by
    simp [searchFirst, not_lt.mpr h0, hp, hem]
  rw [hr]
  omega

/-- C17, as amended: on a storage sorted under a total-preorder `compare`, for a `value` such
that every element of the storage that compares equal to it is `equals` to it in both
argument orders, `has value` is `true` exactly when `indexOf value` is not `-1`; and for a
symmetric `equals`, whatever else holds of it, `has value = true` implies that
`indexOf value` is not `-1`. -/
theorem has_agrees_with_indexOf [HasUndefined α] (s : SortedArray α)
    (tp : TotalPreorder s.contentCompare) (hs : Sorted s.contentCompare s.array) (value : α) :
    ((∀ x ∈ s.array, s.contentCompare value x = 0 →
        s.contentEquals value x = true ∧ s.contentEquals x value = true) →
      (s.has value = true ↔ s.indexOf value ≠ -1)) ∧
    ((∀ a b, s.contentEquals a b = s.contentEquals b a) →
      s.has value = true → s.indexOf value ≠ -1) := by
  have hloc0 := search_spec tp hs value
  constructor
  · intro hrun
    by_cases hneg : search s.array value s.contentCompare < 0
    · have h1 : s.has value = false := by
        simp [has, hneg]
      have h2 : s.indexOf value = -1 := by
        simp [indexOf, searchFirst, hneg]
      simp [h1, h2]
    · rcases hloc0 with ⟨hp0, hpn, hpc⟩ | ⟨h, _⟩
      swap
      · omega
      obtain ⟨e1, e2⟩ := hrun _ (item_mem s.array _ hp0 hpn) hpc
      have h1 : s.has value = true := by
        simp [has, hp0, e2]
      have h2 := searchFirst_ne_of_landing s.array value s.contentCompare s.contentEquals hp0 e1
      exact ⟨fun _ => h2, fun _ => h1⟩
  · intro hsymm hhas
    simp only [has, Bool.and_eq_true, decide_eq_true_eq] at hhas
    obtain ⟨hp0, he⟩ := hhas
    rw [hsymm] at he
    exact searchFirst_ne_of_landing s.array value s.contentCompare s.contentEquals hp0 he

/-- The statement of C17 as amended at the storage `[1, 3, 3, 3, 5]` under `byKey` and
`sameKey`, for the value `3`: the hypotheses hold, `has 3` is `true` and `indexOf 3` is `1`. -/
theorem has_agrees_with_indexOf_witness :
    TotalPreorder byKey ∧ Sorted byKey [num 1, num 3, num 3, num 3, num 5] ∧
    (ofStorage [num 1, num 3, num 3, num 3, num 5] sameKey false).has (num 3) = true ∧
    (ofStorage [num 1, num 3, num 3, num 3, num 5] sameKey false).indexOf (num 3) = 1 ∧
    ((ofStorage [num 1, num 3, num 3, num 3, num 5] sameKey false).has (num 3) = true ↔
      (ofStorage [num 1, num 3, num 3, num 3, num 5] sameKey false).indexOf (num 3) ≠ -1) :=
  ⟨byKey_totalPreorder, by decide, by decide, by decide,
    (has_agrees_with_indexOf (ofStorage [num 1, num 3, num 3, num 3, num 5] sameKey false)
      byKey_totalPreorder (by decide) (num 3)).1 (by decide)⟩

/-- C17 as stated fails: the storage holds the records of key `3` with the tags `2`, `0`, `1`,
sorted under `byKey`; `sameValue` holds only between values that compare equal; for the
record of tag `2`, `search` lands on index `1`, whose element is another record, so `has`
returns `false`, while `indexOf` steps left onto index `0` and returns `0`. -/
theorem has_agrees_with_indexOf_counterexample :
    TotalPreorder byKey ∧
    Sorted byKey [Val.record 3 2, Val.record 3 0, Val.record 3 1] ∧
    (∀ a b, sameValue a b = true → byKey a b = 0) ∧
    (ofStorage [Val.record 3 2, Val.record 3 0, Val.record 3 1] sameValue false).has
      (Val.record 3 2) = false ∧
    (ofStorage [Val.record 3 2, Val.record 3 0, Val.record 3 1] sameValue false).indexOf
      (Val.record 3 2) = 0 :=
  ⟨byKey_totalPreorder, by decide, sameValue_fine, by decide, by decide⟩

/-! ## What `swap` returns and what it removes -/

/-- What `splice` removes and what it leaves make up the array. -/
theorem arraySplice_nil_perm (array : List α) (start : Int) (deleteCount : Option Int) :
    array.Perm ((arraySplice array start deleteCount []).1 ++
      (arraySplice array start deleteCount []).2) := by
  simp only [arraySplice, List.append_nil]
  generalize clampIndex array.length start = k
  generalize spliceCount array.length k deleteCount = c
  have h1 : array = array.take k ++ ((array.drop k).take c ++ (array.drop k).drop c) := by
    rw [List.take_append_drop, List.take_append_drop]
  have h2 : (array.drop k).drop c = array.drop (k + c) := List.drop_drop c k array
  rw [h2] at h1
  conv_lhs => rw [h1]
  rw [← List.append_assoc, ← List.append_assoc]
  exact List.Perm.append_right _ List.perm_append_comm

/-- For an index that is not negative and a length that is not negative or left out, `swap`
returns exactly the range it removes, and the storage after the call is made up of the
elements left and the values inserted. -/
theorem swap_returns_removed_in_range [HasUndefined α] (s : SortedArray α) (index : Int)
    (length : Option Int) (plus : List α) (h0 : 0 ≤ index)
    (hl : ∀ l, length = some l → 0 ≤ l) :
    (s.swap (some index) length plus).1 = (arraySplice s.array index length []).1 ∧
    s.array.Perm ((s.swap (some index) length plus).1 ++
      (arraySplice s.array index length []).2) ∧
    (s.swap (some index) length plus).2.array.Perm
      ((arraySplice s.array index length []).2 ++ plus) := by
  have hret := swap_returned s index length plus h0 hl
  obtain ⟨-, t, ht, ht1, -⟩ := swap_parts s (some index) length plus (by simp)
  have hnot : ¬ index < 0 := not_lt.mpr h0
  simp only [Option.getD_some, hnot, if_false] at ht1
  refine ⟨hret, ?_, ?_⟩
  · rw [hret]
    exact arraySplice_nil_perm s.array index length
  · rw [ht, ← ht1]
    exact addEach_perm plus t

/-- The statement above at the storage `[10, 20, 30]` and the call `swap(1, 1, [15, 25])`: it
returns `[20]` and leaves `[10, 15, 25, 30]`. -/
theorem swap_returns_removed_in_range_witness :
    (0 : Int) ≤ 1 ∧ (∀ l : Int, some (1 : Int) = some l → 0 ≤ l) ∧
    ((ofStorage [num 10, num 20, num 30] sameKey false).swap (some 1) (some 1)
      [num 15, num 25]).1 = [num 20] ∧
    ((ofStorage [num 10, num 20, num 30] sameKey false).swap (some 1) (some 1)
      [num 15, num 25]).2.array = [num 10, num 15, num 25, num 30] ∧
    ((ofStorage [num 10, num 20, num 30] sameKey false).swap (some 1) (some 1)
      [num 15, num 25]).2.array.Perm
      ((arraySplice (ofStorage [num 10, num 20, num 30] sameKey false).array 1 (some 1) []).2 ++
        [num 15, num 25]) :=
  ⟨by decide, fun l h => by cases h; decide, by decide, by decide,
    (swap_returns_removed_in_range (ofStorage [num 10, num 20, num 30] sameKey false) 1
      (some 1) [num 15, num 25] (by decide) (fun l h => by cases h; decide)).2.2⟩

/-- C11 at a failing input: on the storage `[10, 20, 30]`, `swap(-4, 1, [])` returns `[]`,
while the `splice(-1, 1)` it performs removes `[30]`: the storage after the call is
`[10, 20]`, one element short of the original without the returned elements. -/
theorem swap_returns_less_than_removed :
    ((ofStorage [num 10, num 20, num 30] sameKey false).swap (some (-4)) (some 1) []).1 = [] ∧
    (arraySplice (ofStorage [num 10, num 20, num 30] sameKey false).array (-1) (some 1) []).1 =
      [num 30] ∧
    ((ofStorage [num 10, num 20, num 30] sameKey false).swap (some (-4)) (some 1) []).2.array =
      [num 10, num 20] ∧
    ((ofStorage [num 10, num 20, num 30] sameKey false).swap (some (-4)) (some 1) []).2.array.length
      ≠ (((ofStorage [num 10, num 20, num 30] sameKey false).array.length -
        ((ofStorage [num 10, num 20, num 30] sameKey false).swap (some (-4)) (some 1)
          []).1.length) + ([] : List Val).length) :=
  ⟨by decide, by decide, by decide, by decide⟩

/-! ## Mutations that dispatch nothing -/

/-- C14 at failing inputs: with notification enabled on the storage `[1, 2, 3]`, `pop`
leaves `[1, 2]`, `shift` leaves `[2, 3]` and `deleteAll(2, equals)` with an equality override
leaves `[1, 3]`, and none of the three dispatches an event. -/
theorem silent_mutations :
    (ofStorage [num 1, num 2, num 3] sameKey true).dispatchesRangeChanges = true ∧
    (ofStorage [num 1, num 2, num 3] sameKey true).pop.2.array = [num 1, num 2] ∧
    (ofStorage [num 1, num 2, num 3] sameKey true).pop.2.dispatched = [] ∧
    (ofStorage [num 1, num 2, num 3] sameKey true).shift.2.array = [num 2, num 3] ∧
    (ofStorage [num 1, num 2, num 3] sameKey true).shift.2.dispatched = [] ∧
    ((ofStorage [num 1, num 2, num 3] sameKey true).deleteAll 0 (num 2) (some sameKey)).map
      (fun r => (r.1, r.2.array, r.2.dispatched)) = some (1, [num 1, num 3], []) :=
  ⟨rfl, by decide, by decide, by decide, by decide, by decide⟩

/-! ## The reads of the scanning loop of `deleteAll` -/

theorem scanTrace_snd [HasUndefined α] (array : List α) (value : α) (equals : α → α → Bool) :
    ∀ (fuel : Nat) (stop : Int),
      (scanTrace array value equals fuel stop).2 = scanRun array value equals fuel stop := by
  intro fuel
  induction fuel with
  | zero => intro stop; rfl
  | succ fuel ih =>
    intro stop
    simp only [scanTrace, scanRun]
    split
    · exact ih _
    · rfl

/-- When the elements from `stop` to the last one are all `equals` to `value`, the scanning
loop reads the array at the index `array.length`, one past the last element. -/
theorem scanTrace_reads_past_end [HasUndefined α] (array : List α) (value : α)
    (equals : α → α → Bool) :
    ∀ (fuel : Nat) (stop : Int), 0 ≤ stop → stop ≤ array.length →
      (array.length : Int) - stop ≤ fuel →
      (∀ j : Int, stop ≤ j → j < array.length → equals value (item array j) = true) →
      (array.length : Int) ∈ (scanTrace array value equals fuel stop).1 := by
  intro fuel
  induction fuel with
  | zero =>
    intro stop h0 hn hfuel hrun
    have e : stop = array.length := by omega
    simp [scanTrace, e]
  | succ fuel ih =>
    intro stop h0 hn hfuel hrun
    rcases lt_or_eq_of_le hn with hlt | heq
    · have hc := hrun stop (le_refl _) hlt
      have hstep : scanTrace array value equals (fuel + 1) stop =
          (stop :: (scanTrace array value equals fuel (stop + 1)).1,
            (scanTrace array value equals fuel (stop + 1)).2) := by
        simp [scanTrace, hc]
      rw [hstep]
      exact List.mem_cons_of_mem _ (ih (stop + 1) (by omega) (by omega)
        (by push_cast at hfuel; omega) (fun j hj hjn => hrun j (by omega) hjn))
    · by_cases hc : equals value (item array stop) = true
      · have hstep : scanTrace array value equals (fuel + 1) stop =
            (stop :: (scanTrace array value equals fuel (stop + 1)).1,
              (scanTrace array value equals fuel (stop + 1)).2) := by
          simp [scanTrace, hc]
        rw [hstep, heq]
        exact List.mem_cons_self _ _
      · have hstep : scanTrace array value equals (fuel + 1) stop = ([stop], some stop) := by
          simp [scanTrace, hc]
        rw [hstep, heq]
        exact List.mem_singleton.mpr rfl

/-- C18 at a failing input: on the storage `[1, 3, 3]` (`length = 3`), `deleteAll(3)` starts
its scan at index `1` and reads the array at the indices `1`, `2` and `3`: the last read is
at `array.length`, outside the storage.  The loop ends there only because `sameKey` does not
take `undefined` for `3`. -/
theorem scan_reads_array_length :
    searchFirst [num 1, num 3, num 3] (num 3) byKey sameKey = 1 ∧
    scanTrace [num 1, num 3, num 3] (num 3) sameKey 3 1 = ([1, 2, 3], some 3) ∧
    scanRun [num 1, num 3, num 3] (num 3) sameKey 3 1 = some 3 ∧
    ¬ (∀ i ∈ (scanTrace [num 1, num 3, num 3] (num 3) sameKey 3 1).1,
      i < ([num 1, num 3, num 3] : List Val).length) :=
  ⟨by decide, by decide, by decide, by decide⟩

/-! ## `reduce` and `reduceRight` -/

/-- C20 at every input: whatever the storage, the callback and the basis passed, when no
scope around `reduceRight` binds the names `callback` and `basis` (the module binds neither),
the call throws the `ReferenceError` for `basis`; whatever the scopes bind, the result does
not depend on the callback and the basis passed.  `reduce`, which declares the two
parameters, folds the storage from the first element: on `[1, 2, 3]`, adding the keys to `0`
gives `6`. -/
theorem reduceRight_throws {β : Type} (s : SortedArray α) (callback : β → α → Int → β)
    (basis : β) :
    reduceRight s callback basis none none =
      Except.error (JsError.referenceError FreeName.basis) ∧
    (∀ (otherCallback : β → α → Int → β) (otherBasis : β)
      (outerCallback : Option (β → α → Int → β)) (outerBasis : Option β),
      reduceRight s callback basis outerCallback outerBasis =
        reduceRight s otherCallback otherBasis outerCallback outerBasis) ∧
    reduce (ofStorage [num 1, num 2, num 3] sameKey false)
      (fun (acc : Int) (value : Val) (_ : Int) => acc + byKey value (num 0)) 0 = 6 ∧
    reduceRight (ofStorage [num 1, num 2, num 3] sameKey false)
      (fun (acc : Int) (value : Val) (_ : Int) => acc + byKey value (num 0)) 0 none none =
      Except.error (JsError.referenceError FreeName.basis) :=
  ⟨rfl, fun _ _ _ _ => rfl, by decide, rfl⟩

/-! ## Mutations that are announced -/

theorem announced_of_pair (s t : SortedArray α) (b a : RangeChange α)
    (rest : List (RangeChange α)) (hb : b.phase = Phase.before) (ha : a.phase = Phase.after)
    (h : t.dispatched = s.dispatched ++ (b :: a :: rest)) : Announced s t :=
  ⟨b :: a :: rest, h, ⟨b, List.mem_cons_self _ _, hb⟩,
    ⟨a, List.mem_cons_of_mem _ (List.mem_cons_self _ _), ha⟩⟩

theorem addEach_announced [HasUndefined α] (s : SortedArray α) (values : List α)
    (hd : s.dispatchesRangeChanges = true) (hne : values ≠ []) :
    Announced s (s.addEach values) := by
  obtain ⟨value, rest, rfl⟩ := List.exists_cons_of_ne_nil hne
  refine announced_of_pair s _
    ⟨Phase.before, [value], [], searchForInsertionIndex s.array value s.contentCompare⟩
    ⟨Phase.after, [value], [], searchForInsertionIndex s.array value s.contentCompare⟩
    (insertionEvents s.contentCompare
      (arraySplice s.array (searchForInsertionIndex s.array value s.contentCompare) (some 0)
        [value]).2 rest) rfl rfl ?_
  rw [addEach_dispatched, hd]
  rfl

theorem swap_announced [HasUndefined α] (s : SortedArray α) (index length : Option Int)
    (plus : List α) (hd : s.dispatchesRangeChanges = true)
    (h : ¬ (index = none ∧ length = none)) :
    Announced s (s.swap index length plus).2 := by
  refine announced_of_pair s _
    ⟨Phase.before, plus, (s.swap index length plus).1,
      if index.getD 0 < 0 then index.getD 0 + s.length else index.getD 0⟩
    ⟨Phase.after, [], (s.swap index length plus).1,
      if index.getD 0 < 0 then index.getD 0 + s.length else index.getD 0⟩
    (insertionEvents s.contentCompare
      (arraySplice s.array (if index.getD 0 < 0 then index.getD 0 + s.length else index.getD 0)
        length []).2 plus) rfl rfl ?_
  simp [swap, h, hd, addEach_dispatched, dispatchBeforeRangeChange, dispatchRangeChange]

/-- With notification enabled, every call other than `pop`, `shift` and `deleteAll` with an
equality override that changes the storage dispatches a before-event and an after-event. -/
theorem announced_mutations [HasUndefined α] (fuel : Nat) (s t : SortedArray α) (op : Op α)
    (hd : s.dispatchesRangeChanges = true)
    (hop : op ≠ Op.pop ∧ op ≠ Op.shift ∧ ∀ value equals, op ≠ Op.deleteAll value (some equals))
    (h : op.run fuel s = some t) (hch : t.array ≠ s.array) : Announced s t := by
  cases op with
  | add value =>
    simp only [Op.run, Option.some.injEq] at h
    subst h
    refine announced_of_pair s _
      ⟨Phase.before, [value], [], searchForInsertionIndex s.array value s.contentCompare⟩
      ⟨Phase.after, [value], [], searchForInsertionIndex s.array value s.contentCompare⟩
      [] rfl rfl ?_
    rw [add_dispatched, hd]
    rfl
  | delete value =>
    simp only [Op.run, Option.some.injEq] at h
    subst h
    by_cases hf : searchFirst s.array value s.contentCompare s.contentEquals = -1
    · rw [delete_not_found s value hf] at hch
      exact absurd rfl hch
    · refine announced_of_pair s _
        ⟨Phase.before, [], [value], searchFirst s.array value s.contentCompare s.contentEquals⟩
        ⟨Phase.after, [], [value], searchFirst s.array value s.contentCompare s.contentEquals⟩
        [] rfl rfl ?_
      simp [delete, hf, hd, dispatchBeforeRangeChange, dispatchRangeChange]
  | deleteAll value equals =>
    cases equals with
    | some equals => exact absurd rfl (hop.2.2 value equals)
    | none =>
      simp only [Op.run, Option.map_eq_some'] at h
      obtain ⟨r, hr, rfl⟩ := h
      by_cases hstart : searchFirst s.array value s.contentCompare s.contentEquals = -1
      · simp only [deleteAll, hstart, ne_eq, not_true_eq_false, if_false,
          Option.some.injEq] at hr
        subst hr
        exact absurd rfl hch
      · simp only [deleteAll, hstart, ne_eq, not_false_eq_true, if_true] at hr
        cases hscan : scanRun s.array value s.contentEquals fuel
            (searchFirst s.array value s.contentCompare s.contentEquals) with
        | none => simp [hscan] at hr
        | some stop =>
          simp only [hscan, Option.some.injEq] at hr
          subst hr
          refine announced_of_pair s _
            ⟨Phase.before, [], s.slice
              (searchFirst s.array value s.contentCompare s.contentEquals) (some stop),
              searchFirst s.array value s.contentCompare s.contentEquals⟩
            ⟨Phase.after, [], s.slice
              (searchFirst s.array value s.contentCompare s.contentEquals) (some stop),
              searchFirst s.array value s.contentCompare s.contentEquals⟩
            [] rfl rfl ?_
          simp [hd, slice, dispatchBeforeRangeChange, dispatchRangeChange]
  | push values =>
    simp only [Op.run, Option.some.injEq] at h
    subst h
    by_cases hv : values = []
    · subst hv
      exact absurd rfl hch
    · exact addEach_announced s values hd hv
  | unshift values =>
    simp only [Op.run, Option.some.injEq] at h
    subst h
    by_cases hv : values = []
    · subst hv
      exact absurd rfl hch
    · exact addEach_announced s values hd hv
  | pop => exact absurd rfl hop.1
  | shift => exact absurd rfl hop.2.1
  | swap index length plus =>
    simp only [Op.run, Option.some.injEq] at h
    subst h
    by_cases hb : index = none ∧ length = none
    · simp [swap, hb] at hch
    · exact swap_announced s index length plus hd hb
  | splice index length plus =>
    simp only [Op.run, Option.some.injEq] at h
    subst h
    by_cases hb : index = none ∧ length = none
    · simp [splice, swap, hb] at hch
    · exact swap_announced s index length plus hd hb
  | clear =>
    simp only [Op.run, Option.some.injEq] at h
    subst h
    refine announced_of_pair s _ ⟨Phase.before, [], s.array, 0⟩ ⟨Phase.after, [], s.array, 0⟩
      [] rfl rfl ?_
    simp [clear, hd, dispatchBeforeRangeChange, dispatchRangeChange]

/-- The statement above at the storage `[1, 2, 3]` with notification enabled and the call
`delete(2)`: it leaves `[1, 3]` and is announced. -/
theorem announced_mutations_witness :
    (ofStorage [num 1, num 2, num 3] sameKey true).dispatchesRangeChanges = true ∧
    ((ofStorage [num 1, num 2, num 3] sameKey true).delete (num 2)).2.array = [num 1, num 3] ∧
    Announced (ofStorage [num 1, num 2, num 3] sameKey true)
      ((ofStorage [num 1, num 2, num 3] sameKey true).delete (num 2)).2 :=
  ⟨rfl, by decide,
    announced_mutations 0 (ofStorage [num 1, num 2, num 3] sameKey true)
      ((ofStorage [num 1, num 2, num 3] sameKey true).delete (num 2)).2 (Op.delete (num 2)) rfl
      ⟨fun h => (by cases h), fun h => (by cases h), fun _ _ h => (by cases h)⟩ rfl
      (by decide)⟩

/-! ## The search as the code runs it, with the 32-bit shift -/

theorem toInt32_of_range (x : Int) (h0 : -2147483648 ≤ x) (h1 : x < 2147483648) :
    toInt32 x = x := by
  unfold toInt32
  omega

theorem shiftRight1_of_range (x : Int) (h0 : 0 ≤ x) (h1 : x < 2147483648) :
    shiftRight1 x = x >>> (1 : Nat) := by
  unfold shiftRight1
  rw [toInt32_of_range x (by omega) h1]

/-- At `2^31` the 32-bit shift gives `-2^30`, where the floor of the half is `2^30`. -/
theorem shiftRight1_wrap : shiftRight1 2147483648 = -1073741824 := by
  decide

/-- On an array of at most `2^30` elements, from an interval inside the array, the loop with
the 32-bit shift reads the same indices and returns the same result as the loop with the floor
of the half. -/
theorem searchLoop32_eq_searchTrace [HasUndefined α] (array : List α) (value : α)
    (compare : α → α → Int) (hlen : array.length ≤ 1073741824) :
    ∀ (fuel : Nat) (first last : Int), 0 ≤ first → last < array.length →
      searchLoop32 array value compare fuel first last =
        searchTrace array value compare fuel first last := by
  intro fuel
  induction fuel with
  | zero => intro first last _ _; rfl
  | succ fuel ih =>
    intro first last h0 hl
    by_cases hle : first ≤ last
    · obtain ⟨hm1, hm2⟩ := middle_bounds first last hle
      have e : shiftRight1 (first + last) = (first + last) >>> (1 : Nat) :=
        shiftRight1_of_range _ (by omega) (by omega)
      simp only [searchLoop32, searchTrace, hle, if_true, e]
      split
      · rw [ih _ _ (by omega) hl]
      · split
        · rw [ih _ _ h0 (by omega)]
        · rfl
    · simp only [searchLoop32, searchTrace, hle, if_false]

/-- On an array of at most `2^30` elements, `search32` returns what `search` returns. -/
theorem search32_eq_search [HasUndefined α] (array : List α) (value : α)
    (compare : α → α → Int) (hlen : array.length ≤ 1073741824) :
    search32 array.length array value compare = some (search array value compare) := by
  unfold search32
  rw [searchLoop32_eq_searchTrace array value compare hlen _ _ _ (le_refl 0) (by omega),
    searchTrace_snd]
  exact search_eq_loop array value compare

/-- Up to `2^30` elements the code locates as its comment has it: on an array of at most
`2^30` elements sorted under a total-preorder `compare`, `search` (run with the 32-bit shift,
for `array.length` iterations or more) returns `r` such that either `0 ≤ r < array.length` and `value` compares equal to `array[r]`,
or `r < 0`, no element compares equal to `value`, and the decoded insertion index
`i = -r - 1` lies in `[0, array.length]` with `compare value array[j] > 0` for every `j < i`
and `< 0` for every `j ≥ i`. -/
theorem search32_dual_purpose_result [HasUndefined α] {compare : α → α → Int}
    (tp : TotalPreorder compare) {array : List α} (hs : Sorted compare array)
    (hlen : array.length ≤ 1073741824) (value : α) (fuel : Nat) (hfuel : array.length ≤ fuel) :
    ∃ r, search32 fuel array value compare = some r ∧
      ((0 ≤ r ∧ r < array.length ∧ compare value (item array r) = 0) ∨
      (r < 0 ∧ (∀ x ∈ array, compare value x ≠ 0) ∧ 0 ≤ -r - 1 ∧ -r - 1 ≤ array.length ∧
        (∀ j : Int, 0 ≤ j → j < -r - 1 → 0 < compare value (item array j)) ∧
        (∀ j : Int, -r - 1 ≤ j → j < array.length → compare value (item array j) < 0))) := by
  obtain ⟨r, hr, hloc⟩ := searchLoop_spec tp hs value fuel 0 (array.length - 1)
    (le_refl 0) (by omega) (by omega) (fun j h0 h => by omega) (fun j h hn => by omega)
    (by omega)
  refine ⟨r, ?_, ?_⟩
  · unfold search32
    rw [searchLoop32_eq_searchTrace array value compare hlen _ _ _ (le_refl 0) (by omega),
      searchTrace_snd]
    exact hr
  · have hno := hloc.no_equal_of_neg
    rcases hloc with h | ⟨h1, h2, h3, h4, h5⟩
    · exact Or.inl h
    · exact Or.inr ⟨h1, hno h1, h2, h3, h4, h5⟩

/-- The statement of `search32_dual_purpose_result` at the storage `[1, 3, 3, 3, 5]` and the
value `4`, which is absent: the hypotheses hold there and `search` returns `-5`, the encoding of the insertion
index `4`. -/
theorem search32_dual_purpose_result_witness :
    TotalPreorder byKey ∧ Sorted byKey [num 1, num 3, num 3, num 3, num 5] ∧
    ([num 1, num 3, num 3, num 3, num 5] : List Val).length ≤ 1073741824 ∧
    search32 5 [num 1, num 3, num 3, num 3, num 5] (num 4) byKey = some (-5) ∧
    ∃ r, search32 5 [num 1, num 3, num 3, num 3, num 5] (num 4) byKey = some r ∧
      ((0 ≤ r ∧ r < ([num 1, num 3, num 3, num 3, num 5] : List Val).length ∧
        byKey (num 4) (item [num 1, num 3, num 3, num 3, num 5] r) = 0) ∨
      (r < 0 ∧ (∀ x ∈ [num 1, num 3, num 3, num 3, num 5], byKey (num 4) x ≠ 0) ∧
        0 ≤ -r - 1 ∧ -r - 1 ≤ ([num 1, num 3, num 3, num 3, num 5] : List Val).length ∧
        (∀ j : Int, 0 ≤ j → j < -r - 1 →
          0 < byKey (num 4) (item [num 1, num 3, num 3, num 3, num 5] j)) ∧
        (∀ j : Int, -r - 1 ≤ j →
          j < ([num 1, num 3, num 3, num 3, num 5] : List Val).length →
          byKey (num 4) (item [num 1, num 3, num 3, num 3, num 5] j) < 0))) :=
  ⟨byKey_totalPreorder, by decide, by decide, by decide,
    search32_dual_purpose_result byKey_totalPreorder (by decide) (by decide) (num 4) 5
      (by decide)⟩

theorem searchLoop32_step_greater [HasUndefined α] (array : List α) (value : α)
    (compare : α → α → Int) (fuel : Nat) (first last : Int) (hle : first ≤ last)
    (hc : 0 < compare value (item array (shiftRight1 (first + last)))) :
    searchLoop32 array value compare (fuel + 1) first last =
      (shiftRight1 (first + last) ::
        (searchLoop32 array value compare fuel (shiftRight1 (first + last) + 1) last).1,
        (searchLoop32 array value compare fuel (shiftRight1 (first + last) + 1) last).2) := by
  simp [searchLoop32, hle, hc]

theorem searchLoop32_step_less [HasUndefined α] (array : List α) (value : α)
    (compare : α → α → Int) (fuel : Nat) (first last : Int) (hle : first ≤ last)
    (hc : compare value (item array (shiftRight1 (first + last))) < 0) :
    searchLoop32 array value compare (fuel + 1) first last =
      (shiftRight1 (first + last) ::
        (searchLoop32 array value compare fuel first (shiftRight1 (first + last) - 1)).1,
        (searchLoop32 array value compare fuel first (shiftRight1 (first + last) - 1)).2) := by
  simp [searchLoop32, hle, hc, not_lt.mpr (le_of_lt hc)]

theorem searchLoop32_exit [HasUndefined α] (array : List α) (value : α)
    (compare : α → α → Int) (fuel : Nat) (first last : Int) (h : ¬ first ≤ last) :
    searchLoop32 array value compare fuel first last = ([], some (-(first + 1))) := by
  cases fuel <;> simp [searchLoop32, h]

/-- The middle that the 32-bit shift gives for an interval that ends at `2^30`: inside the
interval while `first < 2^30`, and `-2^30` at `first = 2^30`. -/
theorem shiftRight1_at_limit (first : Int) (h0 : -1073741824 ≤ first)
    (h1 : first ≤ 1073741824) :
    (first < 1073741824 → first ≤ shiftRight1 (first + 1073741824) ∧
      0 ≤ shiftRight1 (first + 1073741824) ∧
      shiftRight1 (first + 1073741824) < 1073741824) ∧
    (first = 1073741824 → shiftRight1 (first + 1073741824) = -1073741824) := by
  constructor
  · intro hlt
    rw [shiftRight1_of_range _ (by omega) (by omega), Int.shiftRight_eq_div_pow]
    norm_num
    omega
  · intro he
    rw [he]
    exact shiftRight1_wrap

/-- How the code parts from the floor of the half on an array of `2^30 + 1` elements: when
`value` compares greater than every element and less than `undefined`, the loop climbs to
`first = last = 2^30`, computes the middle `-2^30`, reads `undefined` there, and returns
`-(2^30 + 1)`, the encoding of the insertion index `2^30`, without having compared `value` to
the last element. -/
theorem search32_overflow [HasUndefined α] (array : List α) (value : α)
    (compare : α → α → Int) (hlen : array.length = 1073741825)
    (hgreater : ∀ j : Int, 0 ≤ j → j < array.length → 0 < compare value (item array j))
    (hund : compare value undefined < 0) :
    ∀ (fuel : Nat) (first : Int), 0 ≤ first → first ≤ 1073741824 →
      1073741824 - first + 1 ≤ fuel →
      (searchLoop32 array value compare fuel first 1073741824).2 = some (-1073741825) ∧
      (-1073741824 : Int) ∈ (searchLoop32 array value compare fuel first 1073741824).1 := by
  intro fuel
  induction fuel with
  | zero =>
    intro first h0 h1 hfuel
    omega
  | succ fuel ih =>
    intro first h0 h1 hfuel
    obtain ⟨hin, hwrap⟩ := shiftRight1_at_limit first (by omega) h1
    rcases lt_or_eq_of_le h1 with hlt | heq
    · obtain ⟨hm1, hm2, hm3⟩ := hin hlt
      have hc := hgreater (shiftRight1 (first + 1073741824)) hm2 (by omega)
      rw [searchLoop32_step_greater array value compare fuel first 1073741824 h1 hc]
      obtain ⟨ih1, ih2⟩ := ih (shiftRight1 (first + 1073741824) + 1) (by omega) (by omega)
        (by push_cast at hfuel; omega)
      exact ⟨ih1, List.mem_cons_of_mem _ ih2⟩
    · have hm := hwrap heq
      have hitem : item array (shiftRight1 (first + 1073741824)) = undefined := by
        rw [hm]
        unfold item
        rw [if_pos (by omega)]
      have hc : compare value (item array (shiftRight1 (first + 1073741824))) < 0 := by
        rw [hitem]
        exact hund
      rw [searchLoop32_step_less array value compare fuel first 1073741824 h1 hc, hm,
        searchLoop32_exit array value compare fuel first (-1073741824 - 1) (by omega), heq]
      exact ⟨rfl, List.mem_cons_self _ _⟩

/-- With a comparator that takes `value` for the greater of any two values, the loop of the
code on an interval that ends at `2^30` never ends: from `first = last = 2^30` the middle is
`-2^30`, and the loop climbs back. -/
theorem search32_never_ends [HasUndefined α] (array : List α) (value : α)
    (compare : α → α → Int) (hgreater : ∀ x, 0 < compare value x) :
    ∀ (fuel : Nat) (first : Int), -1073741824 ≤ first → first ≤ 1073741824 →
      (searchLoop32 array value compare fuel first 1073741824).2 = none := by
  intro fuel
  induction fuel with
  | zero =>
    intro first h0 h1
    simp [searchLoop32, h1]
  | succ fuel ih =>
    intro first h0 h1
    obtain ⟨hin, hwrap⟩ := shiftRight1_at_limit first h0 h1
    rw [searchLoop32_step_greater array value compare fuel first 1073741824 h1 (hgreater _)]
    rcases lt_or_eq_of_le h1 with hlt | heq
    · obtain ⟨hm1, hm2, hm3⟩ := hin hlt
      exact ih _ (by omega) (by omega)
    · rw [hwrap heq]
      exact ih _ (by omega) (by omega)

theorem search32_reads_negative [HasUndefined α] (array : List α) (value : α)
    (compare : α → α → Int) (hgreater : ∀ x, 0 < compare value x) :
    ∀ (fuel : Nat) (first : Int), 0 ≤ first → first ≤ 1073741824 →
      1073741824 - first + 1 ≤ fuel →
      (-1073741824 : Int) ∈ (searchLoop32 array value compare fuel first 1073741824).1 := by
  intro fuel
  induction fuel with
  | zero =>
    intro first h0 h1 hfuel
    omega
  | succ fuel ih =>
    intro first h0 h1 hfuel
    obtain ⟨hin, hwrap⟩ := shiftRight1_at_limit first (by omega) h1
    rw [searchLoop32_step_greater array value compare fuel first 1073741824 h1 (hgreater _)]
    rcases lt_or_eq_of_le h1 with hlt | heq
    · obtain ⟨hm1, hm2, hm3⟩ := hin hlt
      exact List.mem_cons_of_mem _ (ih _ (by omega) (by omega) (by push_cast at hfuel; omega))
    · rw [hwrap heq]
      exact List.mem_cons_self _ _

/-! ## The storage of `2^30 + 1` zeros -/

theorem hugeStorage_length : hugeStorage.length = 1073741825 :=
  List.length_replicate _ _

theorem item_hugeStorage (j : Int) (h0 : 0 ≤ j) (hj : j < 1073741825) :
    item hugeStorage j = num 0 := by
  obtain ⟨k, rfl⟩ := Int.eq_ofNat_of_zero_le h0
  have hk : k < hugeStorage.length := by
    rw [hugeStorage_length]
    omega
  rw [item_natCast hugeStorage k hk]
  exact List.getElem_replicate _ _

theorem sorted_replicate (compare : α → α → Int) (x : α) (h : compare x x ≤ 0) :
    ∀ n : Nat, Sorted compare (List.replicate n x)
  | 0 => trivial
  | 1 => trivial
  | n + 2 => ⟨h, sorted_replicate compare x h (n + 1)⟩

theorem hugeStorage_sorted : Sorted byKey hugeStorage :=
  sorted_replicate byKey (num 0) (by decide) 1073741825

/-! ## The statements about `search` itself -/

/-- C4 at a failing input: `hugeStorage`, of `2^30 + 1` zeros, is sorted under the total
preorder `byKey`, and `1` compares greater than every element.  At `first = last = 2^30` the
32-bit shift gives the middle `-2^30`, where the comment of the source has `2^30`; the read
there yields `undefined`, which `byKey` puts after `1`, and the loop ends: `search`, given
`array.length` iterations or more, returns `-(2^30 + 1)`, which decodes to the insertion index
`2^30`, yet `1` compares greater, not less, than the element at the index `2^30`.  Neither
of the two cases of the claim holds of the result. -/
theorem search32_wrong_insertion_index :
    TotalPreorder byKey ∧ Sorted byKey hugeStorage ∧ hugeStorage.length = 1073741825 ∧
    (∀ fuel : Nat, hugeStorage.length ≤ fuel →
      search32 fuel hugeStorage (num 1) byKey = some (-1073741825)) ∧
    (-1073741824 : Int) ∈
      (searchLoop32 hugeStorage (num 1) byKey hugeStorage.length 0
        ((hugeStorage.length : Int) - 1)).1 ∧
    ¬ ((0 ≤ (-1073741825 : Int) ∧ (-1073741825 : Int) < hugeStorage.length ∧
        byKey (num 1) (item hugeStorage (-1073741825)) = 0) ∨
      ((-1073741825 : Int) < 0 ∧ (∀ x ∈ hugeStorage, byKey (num 1) x ≠ 0) ∧
        0 ≤ -(-1073741825 : Int) - 1 ∧ -(-1073741825 : Int) - 1 ≤ hugeStorage.length ∧
        (∀ j : Int, 0 ≤ j → j < -(-1073741825 : Int) - 1 →
          0 < byKey (num 1) (item hugeStorage j)) ∧
        (∀ j : Int, -(-1073741825 : Int) - 1 ≤ j → j < hugeStorage.length →
          byKey (num 1) (item hugeStorage j) < 0))) := by
  have hlen := hugeStorage_length
  have hlast : ((hugeStorage.length : Nat) : Int) - 1 = 1073741824 := by
    rw [hlen]
    norm_num
  have hgreater : ∀ j : Int, 0 ≤ j → j < hugeStorage.length →
      0 < byKey (num 1) (item hugeStorage j) := by
    intro j h0 hj
    rw [item_hugeStorage j h0 (by rw [hlen] at hj; exact_mod_cast hj)]
    decide
  have hund : byKey (num 1) (undefined : Val) < 0 := by decide
  have hover := search32_overflow hugeStorage (num 1) byKey hlen hgreater hund
  refine ⟨byKey_totalPreorder, hugeStorage_sorted, hlen, ?_, ?_, ?_⟩
  · intro fuel hfuel
    unfold search32
    rw [hlast]
    exact (hover fuel 0 (le_refl 0) (by omega) (by rw [hlen] at hfuel; omega)).1
  · rw [hlast]
    exact (hover hugeStorage.length 0 (le_refl 0) (by omega) (by rw [hlen]; omega)).2
  · rintro (⟨h, -⟩ | ⟨-, -, -, -, -, h⟩)
    · omega
    · have h1 := h 1073741824 (by omega) (by rw [hlen]; norm_num)
      have h2 := hgreater 1073741824 (by omega) (by rw [hlen]; norm_num)
      omega

/-- Up to `2^30` elements the code is total: for every array of at most `2^30` elements and
every `compare`, with no law assumed of it and no sortedness, the loop of `search` (run with the 32-bit shift, for
`array.length` iterations or more) ends with a result `r` such that
`-(array.length + 1) ≤ r ≤ array.length - 1`; it runs for at most `array.length` iterations,
each of which reads the array once, at an index in `[0, array.length)`; and
`searchForInsertionIndex` returns an index in `[0, array.length]`. -/
theorem search32_total [HasUndefined α] (array : List α) (value : α) (compare : α → α → Int)
    (hlen : array.length ≤ 1073741824) (fuel : Nat) (hfuel : array.length ≤ fuel) :
    (∃ r, search32 fuel array value compare = some r ∧
      -((array.length : Int) + 1) ≤ r ∧ r ≤ (array.length : Int) - 1) ∧
    (searchLoop32 array value compare fuel 0 ((array.length : Int) - 1)).1.length ≤
      array.length ∧
    (∀ i ∈ (searchLoop32 array value compare fuel 0 ((array.length : Int) - 1)).1,
      0 ≤ i ∧ i < array.length) ∧
    (∃ i, searchForInsertionIndex32 fuel array value compare = some i ∧
      0 ≤ i ∧ i ≤ array.length) := by
  have hbridge := searchLoop32_eq_searchTrace array value compare hlen fuel 0
    ((array.length : Int) - 1) (le_refl 0) (by omega)
  obtain ⟨r, hr⟩ := searchLoop_terminates array value compare fuel 0
    ((array.length : Int) - 1) (by omega)
  obtain ⟨hlo, hhi⟩ := searchLoop_range array value compare fuel 0
    ((array.length : Int) - 1) r (le_refl 0) (by omega) (by omega) hr
  obtain ⟨h1, h2⟩ := searchTrace_reads array value compare fuel 0 ((array.length : Int) - 1)
  have hs : search32 fuel array value compare = some r := by
    unfold search32
    rw [hbridge, searchTrace_snd]
    exact hr
  refine ⟨⟨r, hs, hlo, by omega⟩, ?_, ?_, ?_⟩
  · rw [hbridge]
    omega
  · intro i hi
    rw [hbridge] at hi
    have := h2 i hi
    omega
  · by_cases hneg : r < 0
    · exact ⟨-r - 1, by simp [searchForInsertionIndex32, hs, hneg], by omega, by omega⟩
    · obtain ⟨hw1, hw2, -, -⟩ := walkRight_spec array (fun x => compare value x == 0)
        ((array.length : Int) - 1 - r).toNat r
      have hsteps : (((array.length : Int) - 1 - r).toNat : Int) =
          (array.length : Int) - 1 - r := by
        omega
      rw [hsteps] at hw2
      exact ⟨walkRight array (fun x => compare value x == 0)
        ((array.length : Int) - 1 - r).toNat r,
        by simp [searchForInsertionIndex32, hs, hneg], by omega, by omega⟩

/-- The statement of `search32_total` at the array `[1, 3, 3, 3, 5]`, the value `3` and the
comparator that takes the first value for the greater: the hypotheses hold, the loop reads
the indices `2`, `3`, `4` and returns `-6`, and the insertion index is `5`. -/
theorem search32_total_witness :
    ([num 1, num 3, num 3, num 3, num 5] : List Val).length ≤ 1073741824 ∧
    ([num 1, num 3, num 3, num 3, num 5] : List Val).length ≤ 5 ∧
    searchLoop32 [num 1, num 3, num 3, num 3, num 5] (num 3) alwaysGreater 5 0 4 =
      ([2, 3, 4], some (-6)) ∧
    searchForInsertionIndex32 5 [num 1, num 3, num 3, num 3, num 5] (num 3) alwaysGreater =
      some 5 ∧
    ∃ r, search32 5 [num 1, num 3, num 3, num 3, num 5] (num 3) alwaysGreater = some r ∧
      -((([num 1, num 3, num 3, num 3, num 5] : List Val).length : Int) + 1) ≤ r ∧
      r ≤ (([num 1, num 3, num 3, num 3, num 5] : List Val).length : Int) - 1 :=
  ⟨by decide, by decide, by decide, by decide,
    (search32_total [num 1, num 3, num 3, num 3, num 5] (num 3) alwaysGreater (by decide) 5
      (by decide)).1⟩

/-- C19 at a failing input: on `hugeStorage`, of `2^30 + 1` elements, with the comparator
that takes the first value for the greater, the loop of `search` climbs to
`first = last = 2^30`, where the 32-bit shift gives the middle `-2^30` and the comment of the
source has `2^30`: it reads the array at `-1073741824`, outside `[0, array.length)`, goes on
from `first = -2^30 + 1`, and is still running after any number of iterations.  The elements
play no part: the same holds of every array of `2^30 + 1` slots and every value. -/
theorem search32_runs_on :
    hugeStorage.length = 1073741825 ∧
    (∀ fuel : Nat, search32 fuel hugeStorage (num 1) alwaysGreater = none) ∧
    (-1073741824 : Int) ∈
      (searchLoop32 hugeStorage (num 1) alwaysGreater hugeStorage.length 0
        ((hugeStorage.length : Int) - 1)).1 ∧
    ¬ (0 ≤ (-1073741824 : Int) ∧ (-1073741824 : Int) < hugeStorage.length) ∧
    (∀ (array : List Val) (value : Val), array.length = 1073741825 →
      (∀ fuel : Nat, search32 fuel array value alwaysGreater = none) ∧
      (-1073741824 : Int) ∈
        (searchLoop32 array value alwaysGreater array.length 0
          ((array.length : Int) - 1)).1) := by
  have hlen := hugeStorage_length
  have hlast : ((hugeStorage.length : Nat) : Int) - 1 = 1073741824 := by
    rw [hlen]
    norm_num
  have hgreater : ∀ value x : Val, 0 < alwaysGreater value x := by
    intro value x
    show (0 : Int) < 1
    decide
  refine ⟨hlen, ?_, ?_, ?_, ?_⟩
  · intro fuel
    unfold search32
    rw [hlast]
    exact search32_never_ends hugeStorage (num 1) alwaysGreater (hgreater _) fuel 0
      (by omega) (by omega)
  · rw [hlast]
    exact search32_reads_negative hugeStorage (num 1) alwaysGreater (hgreater _) _ 0
      (le_refl 0) (by omega) (by rw [hlen]; omega)
  · rintro ⟨h, -⟩
    omega
  · intro array value ha
    have halast : ((array.length : Nat) : Int) - 1 = 1073741824 := by
      rw [ha]
      norm_num
    refine ⟨?_, ?_⟩
    · intro fuel
      unfold search32
      rw [halast]
      exact search32_never_ends array value alwaysGreater (hgreater _) fuel 0 (by omega)
        (by omega)
    · rw [halast]
      exact search32_reads_negative array value alwaysGreater (hgreater _) _ 0 (le_refl 0)
        (by omega) (by rw [ha]; omega)

/-- C12 as stated fails on a state that public calls reach: after `swap(-4, 1, [])` on
`[10, 20, 30]` the storage is `[10, 20]`, sorted and not empty, and `length` is `3`; `pop`
and `shift` then each leave `length = 1`, a decrease by two. -/
theorem pop_shift_extremes_counterexample :
    TotalPreorder byKey ∧
    ((ofStorage [num 10, num 20, num 30] sameKey false).swap (some (-4)) (some 1) []).2.array =
      [num 10, num 20] ∧
    Sorted byKey
      ((ofStorage [num 10, num 20, num 30] sameKey false).swap (some (-4)) (some 1) []).2.array ∧
    ((ofStorage [num 10, num 20, num 30] sameKey false).swap (some (-4)) (some 1) []).2.length =
      3 ∧
    ((ofStorage [num 10, num 20, num 30] sameKey false).swap (some (-4)) (some 1)
      []).2.pop.2.length = 1 ∧
    ((ofStorage [num 10, num 20, num 30] sameKey false).swap (some (-4)) (some 1)
      []).2.shift.2.length = 1 :=
  ⟨byKey_totalPreorder, by decide, by decide, by decide, by decide, by decide⟩

end SortedArray
